import Mathlib

/-!
Verification of the duplicate-detection-and-merge engine of the
clubs-data-processing repository.

The embedding models the Python sources shallowly:

* a pandas cell is `Cell := Option String` (`none` models `NaN`/`None`;
  the pipeline's cells are strings once read),
* a pandas row is a function from column name to cell, a `DataFrame` is a
  column list plus index-labelled rows,
* Python string primitives (`strip`, `lower`, `split`, `replace`,
  `isdigit`, regex substitutions used by the sources) are implemented as
  executable functions over `List Char`.

Each definition mirrors one Python function of `src/utils/normalizer.py`,
`src/utils/formatter.py`, `src/core/data_processor.py`,
`src/core/validator.py` or `src/modules/duplicate_merger.py` and keeps its
name.
-/

/-- A pandas cell: `none` is `NaN`/`None`, `some s` a string value. -/
abbrev Cell := Option String

/-- A pandas row: assigns a cell to every column name. -/
abbrev Row := String → Cell

/-- A pandas DataFrame: named columns plus index-labelled rows. -/
structure Table where
  cols : List String
  rows : List (Nat × Row)

/-- The index labels of a table, in row order (`df.index`). -/
def Table.indices (t : Table) : List Nat := t.rows.map Prod.fst

/-- Row lookup by index label (`df.loc[i]`). -/
def Table.rowOf (t : Table) (i : Nat) : Option Row :=
  (t.rows.find? (fun p => p.1 == i)).map Prod.snd

/-- Cell lookup (`df[f][i]`): `none` when the index label is absent. -/
def Table.cell (t : Table) (f : String) (i : Nat) : Option Cell :=
  (t.rowOf i).map (fun r => r f)

/-! ### Python string primitives -/

/-- The characters Python's `str.strip` removes. -/
def isPyWS (c : Char) : Bool :=
  c = ' ' ∨ c = '\t' ∨ c = '\n' ∨ c = '\r' ∨ c = '\x0b' ∨ c = '\x0c'

/-- `str.strip()` on a character list. -/
def stripL (l : List Char) : List Char :=
  ((l.dropWhile isPyWS).reverse.dropWhile isPyWS).reverse

/-- `str.strip()`. -/
def pyStrip (s : String) : String := ⟨stripL s.data⟩

/-- `str.lower()`; ASCII case mapping, which covers every token the sources
compare against (CJK characters are unaffected by lowercasing). -/
def pyLower (s : String) : String := ⟨s.data.map Char.toLower⟩

/-- `str.isdigit()`: nonempty and all digits. -/
def pyIsDigit (s : String) : Bool := s ≠ "" && s.data.all Char.isDigit

/-- `s.replace('.', '')`. -/
def dropDots (s : String) : String := ⟨s.data.filter (fun c => c ≠ '.')⟩

/-- `s.split('.')[0]`. -/
def takeBeforeDot (s : String) : String := ⟨s.data.takeWhile (fun c => c ≠ '.')⟩

/-- `re.sub(r'[^\d]', '', s)`: keep only digits. -/
def onlyDigits (s : String) : String := ⟨s.data.filter Char.isDigit⟩

/-- `str.split()` (no separator): split on whitespace runs, dropping empty
pieces; `cur` holds the characters of the token being read, reversed. -/
def splitWSAux : List Char → List Char → List String
  | [], cur => if cur = [] then [] else [⟨cur.reverse⟩]
  | c :: r, cur =>
    if isPyWS c then
      if cur = [] then splitWSAux r [] else (⟨cur.reverse⟩ : String) :: splitWSAux r []
    else splitWSAux r (c :: cur)

/-- `str.split()` with no argument. -/
def pySplitWS (s : String) : List String := splitWSAux s.data []

/-- `sep.join(l)`. -/
def pyJoin (sep : String) : List String → String
  | [] => ""
  | [x] => x
  | x :: r => x ++ sep ++ pyJoin sep r

/-- `s.replace(pat, repl)` / `re.sub` with a literal pattern: replace all
non-overlapping occurrences, scanning left to right. The `fuel` argument
only drives structural recursion; every step consumes at least one
character, so `fuel = l.length` never runs out. -/
def replaceAllAux (pat repl : List Char) : Nat → List Char → List Char
  | 0, l => l
  | _ + 1, [] => []
  | fuel + 1, c :: rest =>
    if pat ≠ [] ∧ pat.isPrefixOf (c :: rest) then
      repl ++ replaceAllAux pat repl fuel ((c :: rest).drop pat.length)
    else c :: replaceAllAux pat repl fuel rest

/-- `s.replace(pat, repl)` on character lists. -/
def replaceAll (pat repl l : List Char) : List Char := replaceAllAux pat repl l.length l

/-- String-level `replaceAll`. -/
def pyReplace (s pat repl : String) : String := ⟨replaceAll pat.data repl.data s.data⟩

/-- `s.startswith(\"1\")`. -/
def startsWithOne (s : String) : Bool :=
  match s.data with
  | '1' :: _ => true
  | _ => false

/-! ### src/utils/normalizer.py — DataNormalizer -/

namespace DataNormalizer

/-- `DataNormalizer.normalize_contact`: absent on `NaN`/empty tokens
(`'nan'`, `'none'`, `'无'`, `''`, case-insensitively); drop a trailing
`.`-part only when the rest is all digits (the Excel numeric-format
artifact check `contact_str.replace('.', '').isdigit()`); strip to digits;
return the digit string (even when it fails the 11-digit leading-1 check),
or `none` when no digit remains. -/
def normalize_contact (value : Cell) : Cell :=
  match value with
  | none => none
  | some s =>
    if s = "" ∨ pyLower s ∈ ["nan", "none", "无", ""] then none
    else
      let c1 := pyStrip s
      let c2 := if c1.data.contains '.' ∧ pyIsDigit (dropDots c1) then takeBeforeDot c1 else c1
      let c3 := onlyDigits c2
      if c3.length = 11 ∧ startsWithOne c3 then some c3
      else if c3 ≠ "" then some c3 else none

/-- `DataNormalizer.normalize_qq`: same empty-token rule and dot handling as
phone; strips to digits; the 5–11-digit conformance check returns the same
string, so the digit string is returned unconditionally when nonempty. -/
def normalize_qq (value : Cell) : Cell :=
  match value with
  | none => none
  | some s =>
    if s = "" ∨ pyLower s ∈ ["nan", "none", "无", ""] then none
    else
      let q1 := pyStrip s
      let q2 := if q1.data.contains '.' ∧ pyIsDigit (dropDots q1) then takeBeforeDot q1 else q1
      let q3 := onlyDigits q2
      if q3 ≠ "" ∧ 5 ≤ q3.length ∧ q3.length ≤ 11 ∧ pyIsDigit q3 then some q3
      else if q3 ≠ "" then some q3 else none

/-- Characters kept by `re.sub(r'[^一-龥a-zA-Z\s]', '', ...)`:
CJK ideographs U+4E00–U+9FA5, ASCII letters, whitespace. -/
def nameChar (c : Char) : Bool :=
  (0x4e00 ≤ c.toNat ∧ c.toNat ≤ 0x9fa5) ∨ c.isAlpha ∨ isPyWS c

/-- `DataNormalizer.normalize_name`: absent on the narrower token set
(`'nan'`, `'none'`, `''` — `'无'` is not in it); collapse whitespace runs
(`' '.join(s.split())`); keep only CJK/ASCII-letter/whitespace characters;
absent when nothing remains. -/
def normalize_name (value : Cell) : Cell :=
  match value with
  | none => none
  | some s =>
    if s = "" ∨ pyLower s ∈ ["nan", "none", ""] then none
    else
      let n1 := pyStrip s
      let n2 := pyJoin " " (pySplitWS n1)
      let n3 : String := ⟨n2.data.filter nameChar⟩
      if n3 ≠ "" then some n3 else none

/-- Python `\w` for the characters this data contains: ASCII alphanumerics,
underscore, CJK ideographs. Used for the `\b` word-boundary test. -/
def isWordChar (c : Char) : Bool :=
  c.isAlphanum ∨ c = '_' ∨ (0x4e00 ≤ c.toNat ∧ c.toNat ≤ 0x9fff)

/-- A `\b` word boundary holds before a word character exactly when the
preceding character (if any) is not a word character. -/
def boundaryBefore : Option Char → Bool
  | none => true
  | some p => ! isWordChar p

/-- `re.sub(r'\b(22|23|24|25)级', r'20\1级', s)`: `prev` is the character
just before the scan position (`none` at the start of the string); a match
requires a word boundary, i.e. no word character before the first digit. -/
def subYY : Option Char → List Char → List Char
  | prev, '2' :: d :: '级' :: rest =>
    if (d = '2' ∨ d = '3' ∨ d = '4' ∨ d = '5') ∧ boundaryBefore prev then
      '2' :: '0' :: '2' :: d :: '级' :: subYY (some '级') rest
    else '2' :: subYY (some '2') (d :: '级' :: rest)
  | prev, c :: rest => c :: subYY (some c) rest
  | _, [] => []

/-- `re.sub(r'20班(\d)级', r'202\1级', s)`. -/
def subBan : List Char → List Char
  | '2' :: '0' :: '班' :: d :: '级' :: rest =>
    if d.isDigit then '2' :: '0' :: '2' :: d :: '级' :: subBan rest
    else '2' :: subBan ('0' :: '班' :: d :: '级' :: rest)
  | c :: rest => c :: subBan rest
  | [] => []

/-- `DataNormalizer.normalize_class_info`: absent on the broad empty-token
set; then, in order: two-digit-year rule (`\b(22|23|24|25)级 → 20\1级`),
year-misplacement rule (`20班(\d)级 → 202\1级`), spelled-out class numbers
(`本科一班 → 本科1班` etc.), spelled-out years (`二三级 → 2023级` etc.).
There is no pass collapsing runs of `级`. -/
def normalize_class_info (value : Cell) : Cell :=
  match value with
  | none => none
  | some s =>
    if s = "" ∨ pyLower s ∈ ["nan", "none", "无", ""] then none
    else
      let c1 := pyStrip s
      let c2 : String := ⟨subYY none c1.data⟩
      let c3 : String := ⟨subBan c2.data⟩
      let c4 := pyReplace (pyReplace (pyReplace c3 "本科一班" "本科1班") "本科二班" "本科2班") "本科三班" "本科3班"
      let c5 := pyReplace (pyReplace (pyReplace c4 "二三级" "2023级") "二四级" "2024级") "二五级" "2025级"
      some c5

/-- `DataNormalizer.is_empty_value`: null, blank after trimming, or
case-insensitively one of `nan`/`none`/`null`/`无`/`空`/`/`. -/
def is_empty_value (value : Cell) : Bool :=
  match value with
  | none => true
  | some s =>
    if pyStrip s = "" then true
    else if pyLower s ∈ ["nan", "none", "null", "无", "空", "/"] then true
    else false

end DataNormalizer

/-! ### src/utils/normalizer.py — YearFormatter -/

namespace YearFormatter

/-- The four anchored rules `^22级 → 2022级` … `^25级 → 2025级` (at most one
can match, so they are a single prefix rewrite). -/
def fixRuleShortYear (l : List Char) : List Char :=
  match l with
  | '2' :: d :: '级' :: rest =>
    if d = '2' ∨ d = '3' ∨ d = '4' ∨ d = '5' then '2' :: '0' :: '2' :: d :: '级' :: rest else l
  | _ => l

/-- The four anchored rules `^(2022)([^级]) → \1级\2` … (`[^级]` consumes one
character, which the replacement reinserts). -/
def fixRuleMissingJi (l : List Char) : List Char :=
  match l with
  | '2' :: '0' :: '2' :: d :: c :: rest =>
    if (d = '2' ∨ d = '3' ∨ d = '4' ∨ d = '5') ∧ c ≠ '级' then
      '2' :: '0' :: '2' :: d :: '级' :: c :: rest
    else l
  | _ => l

/-- The anchored rule `^(202[2-5])年 → \1级`. -/
def fixRuleNian (l : List Char) : List Char :=
  match l with
  | '2' :: '0' :: '2' :: d :: '年' :: rest =>
    if d = '2' ∨ d = '3' ∨ d = '4' ∨ d = '5' then '2' :: '0' :: '2' :: d :: '级' :: rest else l
  | _ => l

/-- Whether a character list starts with `级`. -/
def headIsJi : List Char → Bool
  | '级' :: _ => true
  | _ => false

/-- The anchored rule `^(202[2-5])\s+级 → \1级`. -/
def fixRuleSpace (l : List Char) : List Char :=
  match l with
  | '2' :: '0' :: '2' :: d :: rest =>
    if (d = '2' ∨ d = '3' ∨ d = '4' ∨ d = '5') ∧ rest.takeWhile isPyWS ≠ [] ∧
        headIsJi (rest.dropWhile isPyWS) then
      '2' :: '0' :: '2' :: d :: rest.dropWhile isPyWS
    else l
  | _ => l

/-- `re.sub(r'级+', '级', s)`: collapse every run of `级` to one. -/
def collapseJi : List Char → List Char
  | [] => []
  | '级' :: '级' :: rest => collapseJi ('级' :: rest)
  | c :: rest => c :: collapseJi rest

/-- `YearFormatter.fix_year_format`: `None` and `''` returned unchanged;
otherwise strip, apply the `YEAR_FIX_RULES` in order, collapse runs of
`级`, strip again. -/
def fix_year_format (value : Cell) : Cell :=
  match value with
  | none => none
  | some s =>
    if s = "" then some s
    else
      let r0 := stripL s.data
      let r1 := fixRuleShortYear r0
      let r2 := fixRuleMissingJi r1
      let r3 := fixRuleNian r2
      let r4 := replaceAll "20班3级".data "2023级".data
        (replaceAll "20班4级".data "2024级".data (replaceAll "20班5级".data "2025级".data r3))
      let r5 := fixRuleSpace r4
      let r6 := collapseJi r5
      some ⟨stripL r6⟩

/-- No two consecutive `级` characters. -/
def noDoubleJi : List Char → Bool
  | [] => true
  | [_] => true
  | a :: b :: rest => !(a = '级' ∧ b = '级') && noDoubleJi (b :: rest)

end YearFormatter

/-! ### src/core/validator.py — DataValidator -/

namespace DataValidator

/-- `DataValidator.check_field_completeness`: the negation of the shared
empty-value predicate. -/
def check_field_completeness (value : Cell) : Bool :=
  ! DataNormalizer.is_empty_value value

end DataValidator

/-! ### src/utils/formatter.py — DataMerger -/

namespace DataMerger

/-- `s.split(',')` on a character list; pieces may be empty. -/
def splitCommaAux : List Char → List Char → List String
  | [], cur => [⟨cur.reverse⟩]
  | c :: r, cur => if c = ',' then (⟨cur.reverse⟩ : String) :: splitCommaAux r [] else splitCommaAux r (c :: cur)

/-- `str.split(',')`. -/
def splitComma (s : String) : List String := splitCommaAux s.data []

/-- The token stream of `merge_club_info`: for each non-null, non-`''`
value, its comma-separated pieces, each stripped. -/
def allClubs (club_list : List Cell) : List String :=
  club_list.flatMap (fun v =>
    match v with
    | none => []
    | some s => if s ≠ "" then (splitComma s).map pyStrip else [])

/-- The dedup loop of `merge_club_info`: keep a token when it is nonempty
and not seen before, preserving first-seen order. -/
def clubLoop : List String → List String → List String
  | [], acc => acc
  | v :: r, acc => if v ≠ "" ∧ ¬ v ∈ acc then clubLoop r (acc ++ [v]) else clubLoop r acc

/-- The deduplicated token list `unique_clubs` of `merge_club_info`. -/
def clubTokens (club_list : List Cell) : List String := clubLoop (allClubs club_list) []

/-- `DataMerger.merge_club_info`. -/
def merge_club_info (club_list : List Cell) : String :=
  if club_list = [] then "" else pyJoin ", " (clubTokens club_list)

/-- The dedup loop of `smart_merge_values` (keeps first occurrences). -/
def dedupLoop : List String → List String → List String
  | [], acc => acc
  | v :: r, acc => if ¬ v ∈ acc then dedupLoop r (acc ++ [v]) else dedupLoop r acc

/-- The general-field drop test of `smart_merge_values`:
`if pd.notna(v) and str(v).strip()` — a value is dropped when it is null
or blank after trimming. -/
def generalKeep (v : Cell) : Option String :=
  match v with
  | none => none
  | some s => if pyStrip s ≠ "" then some (pyStrip s) else none

/-- `DataMerger.smart_merge_values`: normalize per field type, drop
`None`/`''`, dedup preserving order; one candidate is returned as-is;
phone prefers the first 11-digit candidate, IM-id the first 5–11-digit
one, class the longest (first maximum), others the first. -/
def smart_merge_values (values : List Cell) (field_type : String) : String :=
  if values = [] then ""
  else
    let normalized : List Cell :=
      if field_type = "contact" then values.map DataNormalizer.normalize_contact
      else if field_type = "qq" then values.map DataNormalizer.normalize_qq
      else if field_type = "name" then values.map DataNormalizer.normalize_name
      else if field_type = "class" then values.map DataNormalizer.normalize_class_info
      else (values.filterMap generalKeep).map some
    let valid := (normalized.filterMap id).filter (fun s => s ≠ "")
    if valid = [] then ""
    else
      let unique := dedupLoop valid []
      if unique.length = 1 then unique.headD ""
      else if field_type = "contact" ∨ field_type = "qq" then
        (unique.find? (fun v =>
          if field_type = "contact" then v.length = 11
          else decide (5 ≤ v.length ∧ v.length ≤ 11))).getD (unique.headD "")
      else if field_type = "class" then
        match unique with
        | [] => ""
        | v :: r => r.foldl (fun best w => if w.length > best.length then w else best) v
      else unique.headD ""

/-- Whether the resolver's drop-empty step discards a value on a general
(untyped) field: exactly when `generalKeep` yields nothing. -/
def resolverDrops (v : Cell) : Bool := (generalKeep v).isNone

/-- The meaningful tokens one value contributes to a club merge: its
comma-separated pieces, stripped, with blank pieces removed. -/
def cleanTokens (v : Cell) : List String := (allClubs [v]).filter (fun s => s ≠ "")

end DataMerger

/-! ### src/core/data_processor.py — DataProcessor -/

namespace DataProcessor

/-- One guarded derived-column addition of `clean_dataframe`: when `flag`
is set and the source column exists, append column `dst` holding the
normalization of the `src` cell of each row. -/
def addDerived (t : Table) (flag : Bool) (src dst : String) (norm : Cell → Cell) : Table :=
  if flag ∧ src ∈ t.cols then
    ⟨t.cols ++ [dst],
     t.rows.map (fun p => (p.1, fun col => if col = dst then norm (p.2 src) else p.2 col))⟩
  else t

/-- `DataProcessor.clean_dataframe`: adds the four `_标准` columns. -/
def clean_dataframe (t : Table) (normalize_contact normalize_qq normalize_name normalize_class : Bool) : Table :=
  addDerived
    (addDerived
      (addDerived
        (addDerived t normalize_contact "联系方式" "联系方式_标准" DataNormalizer.normalize_contact)
        normalize_qq "QQ号" "QQ号_标准" DataNormalizer.normalize_qq)
      normalize_name "姓名" "姓名_标准" DataNormalizer.normalize_name)
    normalize_class "年级专业层次班级" "年级专业层次班级_标准" DataNormalizer.normalize_class_info

/-- `j` shares a key with `i`: some key field, present in the table, gives
both rows the same non-absent, non-empty value. This is the net effect of
the per-field `groupby` plus the pairwise connection loop: a pair gets
connected exactly when one field's group with a `notna`, non-`''` key
contains both indices. -/
def shareKey (t : Table) (key_fields : List String) (i j : Nat) : Bool :=
  key_fields.any (fun f =>
    f ∈ t.cols &&
    (match t.cell f i, t.cell f j with
     | some (some v), some (some w) => v == w && v != ""
     | _, _ => false))

/-- The adjacency sets built by `find_duplicate_groups`
(`connections[i]`, as a list of the table's index labels): all other
indices sharing a key value with `i`. -/
def connections (t : Table) (key_fields : List String) (i : Nat) : List Nat :=
  t.indices.filter (fun j => decide (j ≠ i) && shareKey t key_fields i j)

/-- The depth-first search of `find_duplicate_groups`, in worklist form:
pop a node; if unvisited, mark it and push its neighbours. The `n ∈ univ`
guard and the `fuel` argument only bound the recursion: neighbour lists
are drawn from `univ`, and `dfsFuel` below is proven sufficient, so
neither cut-off is ever taken on the calls the pipeline makes. -/
def dfsAux (nbrs : Nat → List Nat) (univ : List Nat) : Nat → List Nat → List Nat → List Nat
  | 0, _, visited => visited
  | _ + 1, [], visited => visited
  | fuel + 1, n :: stack, visited =>
    if n ∈ visited ∨ ¬ n ∈ univ then dfsAux nbrs univ fuel stack visited
    else dfsAux nbrs univ fuel (nbrs n ++ stack) (n :: visited)

/-- An upper bound on the number of `dfsAux` steps: each step pops one
node, and each of the at most `|univ \ visited|` visiting steps pushes at
most `univ.length` neighbours. -/
def dfsFuel (univ stack visited : List Nat) : Nat :=
  stack.length + (univ.filter (fun x => ¬ x ∈ visited)).length * (univ.length + 1)

/-- One call of the recursive `dfs(idx, current_group)` of the source:
visit everything reachable from `start`. -/
def dfsFrom (nbrs : Nat → List Nat) (univ : List Nat) (start : Nat) (visited : List Nat) : List Nat :=
  dfsAux nbrs univ (dfsFuel univ [start] visited) [start] visited

/-- The group-collecting loop of `find_duplicate_groups`: for each index in
row order, when it is unvisited and has an entry in `connections`
(a nonempty neighbour list), run the DFS; the freshly visited nodes form
`current_group`, appended when its size exceeds 1. -/
def findGroupsLoop (nbrs : Nat → List Nat) (univ : List Nat) :
    List Nat → List Nat → List (List Nat) → List (List Nat)
  | [], _, acc => acc
  | idx :: todo, visited, acc =>
    if ¬ idx ∈ visited ∧ nbrs idx ≠ [] then
      let visited' := dfsFrom nbrs univ idx visited
      let group := visited'.filter (fun x => ¬ x ∈ visited)
      if group.length > 1 then findGroupsLoop nbrs univ todo visited' (acc ++ [group])
      else findGroupsLoop nbrs univ todo visited' acc
    else findGroupsLoop nbrs univ todo visited acc

/-- The default key fields of `find_duplicate_groups` and
`merge_duplicates`. -/
def defaultKeyFields : List String := ["姓名_标准", "QQ号_标准", "联系方式_标准"]

/-- `DataProcessor.find_duplicate_groups`: connected components of the
key-sharing graph, each of size at least 2, discovered in row order. -/
def find_duplicate_groups (t : Table) (key_fields : List String) : List (List Nat) :=
  findGroupsLoop (connections t key_fields) t.indices t.indices [] []

/-- One edge of the similarity graph. -/
def Step (nbrs : Nat → List Nat) (a b : Nat) : Prop := b ∈ nbrs a

/-- Reachability in the similarity graph. -/
def Reach (nbrs : Nat → List Nat) : Nat → Nat → Prop := Relation.ReflTransGen (Step nbrs)

/-- A visited set closed under the adjacency lists. -/
def Closed (nbrs : Nat → List Nat) (visited : List Nat) : Prop :=
  ∀ v ∈ visited, ∀ w ∈ nbrs v, w ∈ visited

/-- Two lists with the same members. -/
def SameSet (g h : List Nat) : Prop := ∀ x, x ∈ g ↔ x ∈ h

/-- `g` is the connected component of some linked node: its members are
exactly the nodes reachable from it. -/
def IsComponent (nbrs : Nat → List Nat) (g : List Nat) : Prop :=
  ∃ x, nbrs x ≠ [] ∧ ∀ y, y ∈ g ↔ Reach nbrs x y

end DataProcessor

/-! ### src/core/data_processor.py — RecordMerger -/

namespace RecordMerger

/-- The raw values of a group's rows in one column
(`group_rows[field].tolist()`). -/
def groupValues (t : Table) (g : List Nat) (f : String) : List Cell :=
  g.filterMap (fun i => (t.rowOf i).map (fun r => r f))

/-- The per-field dispatch of `merge_duplicate_records`. -/
def mergeFieldValue (f : String) (vals : List Cell) : String :=
  if f = "加入社团" then DataMerger.merge_club_info vals
  else if f = "联系方式" then DataMerger.smart_merge_values vals "contact"
  else if f = "QQ号" then DataMerger.smart_merge_values vals "qq"
  else if f = "姓名" then DataMerger.smart_merge_values vals "name"
  else if f = "年级专业层次班级" then DataMerger.smart_merge_values vals "class"
  else DataMerger.smart_merge_values vals "general"

/-- One merged record: for each merge field present in the table, the
field-typed merge of the group's raw values. -/
def mergeGroup (t : Table) (g : List Nat) (merge_fields : List String) : List (String × Cell) :=
  merge_fields.filterMap (fun f =>
    if f ∈ t.cols then some (f, some (mergeFieldValue f (groupValues t g f))) else none)

/-- `RecordMerger.merge_duplicate_records`: one merged record per group,
then one verbatim record (restricted to the merge fields) per index not in
any group. -/
def merge_duplicate_records (t : Table) (duplicate_groups : List (List Nat))
    (merge_fields : List String) : List (List (String × Cell)) :=
  let processed := duplicate_groups.flatten
  duplicate_groups.map (fun g => mergeGroup t g merge_fields) ++
    t.rows.filterMap (fun p =>
      if p.1 ∈ processed then none
      else some (merge_fields.filterMap (fun f =>
        if f ∈ t.cols then some (f, p.2 f) else none)))

/-- The number of records left untouched by merging: rows whose index
belongs to no duplicate group. -/
def untouchedCount (t : Table) (groups : List (List Nat)) : Nat :=
  (t.rows.filter (fun p => ¬ p.1 ∈ groups.flatten)).length

end RecordMerger

/-! ### src/modules/duplicate_merger.py — DuplicateMerger -/

namespace DuplicateMerger

/-- Run statistics of `merge_duplicates`. The compression rate is kept as
the integer pair `(cleaned - merged, cleaned)`; the source formats their
float quotient, whose only modelled behaviour is the division by the
cleaned count. -/
structure MergeStats where
  original_count : Nat
  cleaned_count : Nat
  merged_count : Nat
  duplicate_groups : Nat
  total_duplicates : Nat
  reduced_count : Nat
  compression_rate : Nat × Nat
deriving DecidableEq, Repr

/-- The result dictionary of `merge_duplicates`. -/
structure MergeResult where
  dataframe : List (List (String × Cell))
  stats : MergeStats
  duplicate_groups : List (List Nat)
deriving DecidableEq, Repr

/-- Copy one column under a new name (`df_clean['加入社团'] = df_clean['社团']`). -/
def copyCol (t : Table) (src dst : String) : Table :=
  ⟨t.cols ++ [dst], t.rows.map (fun p => (p.1, fun col => if col = dst then p.2 src else p.2 col))⟩

/-- The base merge-field list of `merge_duplicates`. -/
def baseMergeFields : List String :=
  ["姓名", "QQ号", "联系方式", "年级专业层次班级", "学院", "性别", "年龄", "籍贯", "政治面貌"]

/-- `DuplicateMerger.merge_duplicates`: clean, find groups, merge, build
statistics. Two failure conditions of the source are surfaced as errors:
the progress printout reads the three `_标准` columns (a `KeyError` when a
source column is missing), and the compression rate divides by the cleaned
record count (a `ZeroDivisionError` on a zero-record table). -/
def merge_duplicates (t : Table) : Except String MergeResult :=
  let df_clean := DataProcessor.clean_dataframe t true true true true
  if ¬ ("姓名_标准" ∈ df_clean.cols ∧ "联系方式_标准" ∈ df_clean.cols ∧ "QQ号_标准" ∈ df_clean.cols) then
    .error "KeyError"
  else
    let duplicate_groups := DataProcessor.find_duplicate_groups df_clean DataProcessor.defaultKeyFields
    let withClub :=
      if "社团" ∈ df_clean.cols then (copyCol df_clean "社团" "加入社团", "加入社团" :: baseMergeFields)
      else if "加入社团" ∈ df_clean.cols then (df_clean, "加入社团" :: baseMergeFields)
      else (df_clean, baseMergeFields)
    let df_merged := RecordMerger.merge_duplicate_records withClub.1 duplicate_groups withClub.2
    if h : df_clean.rows.length = 0 then .error "ZeroDivisionError"
    else
      .ok { dataframe := df_merged
            stats :=
              { original_count := t.rows.length
                cleaned_count := df_clean.rows.length
                merged_count := df_merged.length
                duplicate_groups := duplicate_groups.length
                total_duplicates := (duplicate_groups.map List.length).sum
                reduced_count := df_clean.rows.length - df_merged.length
                compression_rate := (df_clean.rows.length - df_merged.length, df_clean.rows.length) }
            duplicate_groups := duplicate_groups }

end DuplicateMerger

/-! ### Concrete fixtures used by the witness and counterexample theorems -/

namespace Fixtures

/-- Scenario 3, record 1: `name="张三"`, `phone="13800000000"`. -/
def scenarioRow1 : Row := fun f =>
  if f = "姓名" then some "张三" else if f = "联系方式" then some "13800000000" else none

/-- Scenario 3, record 2: `name="张三"`, phone absent. -/
def scenarioRow2 : Row := fun f =>
  if f = "姓名" then some "张三" else if f = "联系方式" then none else none

/-- Scenario 3, record 3: `name="李四"`, `phone="13800000000"`. -/
def scenarioRow3 : Row := fun f =>
  if f = "姓名" then some "李四" else if f = "联系方式" then some "13800000000" else none

/-- The three-record Scenario 3 table. -/
def scenarioTable : Table :=
  ⟨["姓名", "联系方式"], [(1, scenarioRow1), (2, scenarioRow2), (3, scenarioRow3)]⟩

/-- Scenario 3 after normalization. -/
def scenarioClean : Table := DataProcessor.clean_dataframe scenarioTable true true true true

/-- A single record whose raw phone is not in canonical form. -/
def contactRow : Row := fun f => if f = "联系方式" then some "138-0000" else none

/-- A one-record table with a non-canonical phone value. -/
def contactTable : Table := ⟨["联系方式"], [(0, contactRow)]⟩

/-- A single record with a canonical name. -/
def nameRow : Row := fun f => if f = "姓名" then some "张三" else none

/-- A one-record table with a canonical name value. -/
def nameTable : Table := ⟨["姓名"], [(0, nameRow)]⟩

/-- A zero-record table carrying the standard columns. -/
def emptyTable : Table := ⟨["姓名", "联系方式", "QQ号"], []⟩

/-- A row for the one-record pipeline witness. -/
def oneRow : Row := fun f => if f = "姓名" then some "张三" else none

/-- A one-record table carrying the standard columns. -/
def oneTable : Table := ⟨["姓名", "联系方式", "QQ号"], [(0, oneRow)]⟩

end Fixtures

/-! ## Theorems

First the correctness of the similarity-graph / connected-component
machinery, then the claim theorems. -/

namespace DataProcessor

/-- Visiting a new node of `univ` strictly shrinks the unvisited part. -/
theorem unvisited_cons_lt {univ visited : List Nat} {n : Nat}
    (hu : n ∈ univ) (hv : ¬ n ∈ visited) :
    (univ.filter (fun x => decide (¬ x ∈ (n :: visited)))).length <
      (univ.filter (fun x => decide (¬ x ∈ visited))).length := by
  have hsub : List.Sublist (univ.filter fun x => decide (¬ x ∈ (n :: visited)))
      (univ.filter fun x => decide (¬ x ∈ visited)) := by
    apply List.monotone_filter_right
    intro a ha
    simp only [decide_eq_true_eq] at ha ⊢
    exact fun hc => ha (List.mem_cons_of_mem _ hc)
  have hle := hsub.length_le
  rcases Nat.lt_or_ge (univ.filter fun x => decide (¬ x ∈ (n :: visited))).length
    (univ.filter fun x => decide (¬ x ∈ visited)).length with h' | h'
  · exact h'
  · exfalso
    have heq := hsub.eq_of_length (Nat.le_antisymm hle h')
    have hn2 : n ∈ univ.filter fun x => decide (¬ x ∈ visited) := by
      rw [List.mem_filter]
      exact ⟨hu, by simpa using hv⟩
    rw [← heq, List.mem_filter] at hn2
    simp at hn2

/-- Popping an already-visited node costs one unit of fuel. -/
theorem dfsFuel_pop {univ stack visited : List Nat} {n : Nat} {fuel : Nat}
    (hf : dfsFuel univ (n :: stack) visited ≤ fuel + 1) :
    dfsFuel univ stack visited ≤ fuel := by
  simp only [dfsFuel, List.length_cons] at hf ⊢
  omega

/-- Visiting a new node and pushing its neighbours fits in one unit less
of fuel, because the unvisited count drops and the pushed list is bounded
by `univ.length`. -/
theorem dfsFuel_push {nbrs : Nat → List Nat} {univ stack visited : List Nat} {n : Nat} {fuel : Nat}
    (hdeg : (nbrs n).length ≤ univ.length)
    (hu : n ∈ univ) (hv : ¬ n ∈ visited)
    (hf : dfsFuel univ (n :: stack) visited ≤ fuel + 1) :
    dfsFuel univ (nbrs n ++ stack) (n :: visited) ≤ fuel := by
  have hlt := unvisited_cons_lt hu hv
  have hmul : ((univ.filter (fun x => decide (¬ x ∈ (n :: visited)))).length + 1) * (univ.length + 1) ≤
      (univ.filter (fun x => decide (¬ x ∈ visited))).length * (univ.length + 1) :=
    Nat.mul_le_mul_right _ (Nat.succ_le_of_lt hlt)
  rw [Nat.succ_mul] at hmul
  simp only [dfsFuel, List.length_cons, List.length_append] at hf ⊢
  omega

/-- The DFS never forgets a visited node. -/
theorem dfsAux_mono (nbrs : Nat → List Nat) (univ : List Nat) :
    ∀ (fuel : Nat) (stack visited : List Nat), ∀ x ∈ visited,
      x ∈ dfsAux nbrs univ fuel stack visited := by
  intro fuel
  induction fuel with
  | zero =>
    intro stack visited x hx
    simpa [dfsAux] using hx
  | succ fuel ih =>
    intro stack visited x hx
    match stack with
    | [] => simpa [dfsAux] using hx
    | n :: stack =>
      rw [dfsAux]
      split
      · exact ih stack visited x hx
      · exact ih (nbrs n ++ stack) (n :: visited) x (List.mem_cons_of_mem _ hx)

/-- With sufficient fuel, every stack element inside `univ` ends up
visited. -/
theorem dfsAux_stack_mem (nbrs : Nat → List Nat) (univ : List Nat)
    (hdeg : ∀ x, (nbrs x).length ≤ univ.length) :
    ∀ (fuel : Nat) (stack visited : List Nat),
      dfsFuel univ stack visited ≤ fuel →
      ∀ s ∈ stack, s ∈ univ → s ∈ dfsAux nbrs univ fuel stack visited := by
  intro fuel
  induction fuel with
  | zero =>
    intro stack visited hf s hs _
    simp only [dfsFuel] at hf
    have : stack.length = 0 := by omega
    rw [List.length_eq_zero] at this
    subst this
    cases hs
  | succ fuel ih =>
    intro stack visited hf s hs hsu
    match stack with
    | [] => cases hs
    | n :: stack =>
      rw [dfsAux]
      split
      · rename_i hguard
        rcases List.mem_cons.mp hs with rfl | hs
        · rcases hguard with hnv | hnu
          · exact dfsAux_mono nbrs univ fuel stack visited s hnv
          · exact absurd hsu hnu
        · exact ih stack visited (dfsFuel_pop hf) s hs hsu
      · rename_i hguard
        push_neg at hguard
        rcases List.mem_cons.mp hs with rfl | hs
        · exact dfsAux_mono nbrs univ fuel _ _ s (List.mem_cons_self _ _)
        · exact ih (nbrs n ++ stack) (n :: visited)
            (dfsFuel_push (hdeg n) hguard.2 hguard.1 hf) s
            (List.mem_append_right _ hs) hsu

/-- With sufficient fuel, when every visited node's neighbours lie in the
visited set or on the stack, the final visited set is closed. -/
theorem dfsAux_closed (nbrs : Nat → List Nat) (univ : List Nat)
    (hdeg : ∀ x, (nbrs x).length ≤ univ.length)
    (hsub : ∀ x, ∀ y ∈ nbrs x, y ∈ univ) :
    ∀ (fuel : Nat) (stack visited : List Nat),
      dfsFuel univ stack visited ≤ fuel →
      (∀ v ∈ visited, ∀ w ∈ nbrs v, w ∈ visited ∨ w ∈ stack) →
      Closed nbrs (dfsAux nbrs univ fuel stack visited) := by
  intro fuel
  induction fuel with
  | zero =>
    intro stack visited hf hinv
    simp only [dfsFuel] at hf
    have : stack.length = 0 := by omega
    rw [List.length_eq_zero] at this
    subst this
    intro v hv w hw
    simp only [dfsAux]
    rcases hinv v hv w hw with h | h
    · exact h
    · cases h
  | succ fuel ih =>
    intro stack visited hf hinv
    match stack with
    | [] =>
      intro v hv w hw
      simp only [dfsAux] at hv ⊢
      rcases hinv v hv w hw with h | h
      · exact h
      · cases h
    | n :: stack =>
      rw [dfsAux]
      split
      · rename_i hguard
        apply ih stack visited (dfsFuel_pop hf)
        intro v hv w hw
        rcases hinv v hv w hw with h | h
        · exact Or.inl h
        · rcases List.mem_cons.mp h with rfl | h
          · rcases hguard with hnv | hnu
            · exact Or.inl hnv
            · exact absurd (hsub v w hw) hnu
          · exact Or.inr h
      · rename_i hguard
        push_neg at hguard
        apply ih (nbrs n ++ stack) (n :: visited)
          (dfsFuel_push (hdeg n) hguard.2 hguard.1 hf)
        intro v hv w hw
        rcases List.mem_cons.mp hv with rfl | hv
        · exact Or.inr (List.mem_append_left _ hw)
        · rcases hinv v hv w hw with h | h
          · exact Or.inl (List.mem_cons_of_mem _ h)
          · rcases List.mem_cons.mp h with rfl | h
            · exact Or.inl (List.mem_cons_self _ _)
            · exact Or.inr (List.mem_append_right _ h)

/-- Everything the DFS visits was already visited or is reachable from the
stack. -/
theorem dfsAux_sound (nbrs : Nat → List Nat) (univ : List Nat) :
    ∀ (fuel : Nat) (stack visited : List Nat),
      ∀ x ∈ dfsAux nbrs univ fuel stack visited,
        x ∈ visited ∨ ∃ s ∈ stack, Reach nbrs s x := by
  intro fuel
  induction fuel with
  | zero =>
    intro stack visited x hx
    simp only [dfsAux] at hx
    exact Or.inl hx
  | succ fuel ih =>
    intro stack visited x hx
    match stack with
    | [] =>
      simp only [dfsAux] at hx
      exact Or.inl hx
    | n :: stack =>
      rw [dfsAux] at hx
      split at hx
      · rcases ih stack visited x hx with h | ⟨s, hs, hr⟩
        · exact Or.inl h
        · exact Or.inr ⟨s, List.mem_cons_of_mem _ hs, hr⟩
      · rcases ih (nbrs n ++ stack) (n :: visited) x hx with h | ⟨s, hs, hr⟩
        · rcases List.mem_cons.mp h with rfl | h
          · exact Or.inr ⟨_, List.mem_cons_self _ _, Relation.ReflTransGen.refl⟩
          · exact Or.inl h
        · rcases List.mem_append.mp hs with hs | hs
          · exact Or.inr ⟨n, List.mem_cons_self _ _,
              Relation.ReflTransGen.head hs hr⟩
          · exact Or.inr ⟨s, List.mem_cons_of_mem _ hs, hr⟩

/-- The DFS keeps the visited list duplicate-free. -/
theorem dfsAux_nodup (nbrs : Nat → List Nat) (univ : List Nat) :
    ∀ (fuel : Nat) (stack visited : List Nat), visited.Nodup →
      (dfsAux nbrs univ fuel stack visited).Nodup := by
  intro fuel
  induction fuel with
  | zero =>
    intro stack visited h
    simpa [dfsAux] using h
  | succ fuel ih =>
    intro stack visited h
    match stack with
    | [] => simpa [dfsAux] using h
    | n :: stack =>
      rw [dfsAux]
      split
      · exact ih stack visited h
      · rename_i hguard
        push_neg at hguard
        exact ih (nbrs n ++ stack) (n :: visited) (List.nodup_cons.mpr ⟨hguard.1, h⟩)

/-- Reachability stays inside a closed visited set. -/
theorem reach_mem_closed {nbrs : Nat → List Nat} {V : List Nat}
    (hcl : Closed nbrs V) {x y : Nat} (hx : x ∈ V) (hr : Reach nbrs x y) : y ∈ V := by
  induction hr with
  | refl => exact hx
  | tail _ hstep ih => exact hcl _ ih _ hstep

/-- Reachability stays inside `univ` when neighbour lists do. -/
theorem reach_mem_univ {nbrs : Nat → List Nat} {univ : List Nat}
    (hsub : ∀ x, ∀ y ∈ nbrs x, y ∈ univ) {x y : Nat}
    (hx : x ∈ univ) (hr : Reach nbrs x y) : y ∈ univ := by
  induction hr with
  | refl => exact hx
  | tail _ hstep ih => exact hsub _ _ hstep

/-- A single DFS call from an unvisited start in a closed visited set
visits exactly the old set plus the start's component. -/
theorem dfsFrom_mem (nbrs : Nat → List Nat) (univ : List Nat)
    (hdeg : ∀ x, (nbrs x).length ≤ univ.length)
    (hsub : ∀ x, ∀ y ∈ nbrs x, y ∈ univ)
    {visited : List Nat} (hcl : Closed nbrs visited)
    {start : Nat} (hstart : start ∈ univ) :
    ∀ x, x ∈ dfsFrom nbrs univ start visited ↔ x ∈ visited ∨ Reach nbrs start x := by
  intro x
  constructor
  · intro hx
    rcases dfsAux_sound nbrs univ _ _ _ x hx with h | ⟨s, hs, hr⟩
    · exact Or.inl h
    · rcases List.mem_cons.mp hs with rfl | hs
      · exact Or.inr hr
      · cases hs
  · intro hx
    rcases hx with hx | hx
    · exact dfsAux_mono nbrs univ _ _ _ x hx
    · have hclosedFinal : Closed nbrs (dfsFrom nbrs univ start visited) := by
        apply dfsAux_closed nbrs univ hdeg hsub _ _ _ (le_refl _)
        intro v hv w hw
        exact Or.inl (hcl v hv w hw)
      have hstartIn : start ∈ dfsFrom nbrs univ start visited :=
        dfsAux_stack_mem nbrs univ hdeg _ _ _ (le_refl _) start
          (List.mem_cons_self _ _) hstart
      exact reach_mem_closed hclosedFinal hstartIn hx

/-- A list containing two distinct elements has length at least 2. -/
theorem two_le_length_of_mem_ne {a b : Nat} {l : List Nat}
    (ha : a ∈ l) (hb : b ∈ l) (hne : a ≠ b) : 2 ≤ l.length := by
  cases l with
  | nil => cases ha
  | cons x r =>
    cases r with
    | nil =>
      rw [List.mem_singleton] at ha hb
      exact absurd (ha.trans hb.symm) hne
    | cons y r2 => simp only [List.length_cons]; omega

/-- The master invariant of the group-collecting loop: every produced
group is a connected component of a linked node, duplicate-free, of size
at least 2 and inside `univ`; the groups are pairwise disjoint; and every
linked node that is pending or already visited ends up in some group. -/
theorem findGroupsLoop_spec (nbrs : Nat → List Nat) (univ : List Nat)
    (hdeg : ∀ x, (nbrs x).length ≤ univ.length)
    (hsub : ∀ x, ∀ y ∈ nbrs x, y ∈ univ)
    (hsym : ∀ a b, a ∈ nbrs b ↔ b ∈ nbrs a)
    (hirr : ∀ a, ¬ a ∈ nbrs a) :
    ∀ (todo visited : List Nat) (acc : List (List Nat)),
      Closed nbrs visited →
      visited.Nodup →
      (∀ x, nbrs x ≠ [] → x ∈ visited ∨ x ∈ todo) →
      (∀ x, x ∈ acc.flatten ↔ x ∈ visited) →
      (∀ g ∈ acc, IsComponent nbrs g ∧ g.Nodup ∧ 2 ≤ g.length ∧ ∀ x ∈ g, x ∈ univ) →
      List.Pairwise (fun g h => ∀ x ∈ g, ¬ x ∈ h) acc →
      (∀ g ∈ findGroupsLoop nbrs univ todo visited acc,
          IsComponent nbrs g ∧ g.Nodup ∧ 2 ≤ g.length ∧ (∀ x ∈ g, x ∈ univ)) ∧
      List.Pairwise (fun g h => ∀ x ∈ g, ¬ x ∈ h) (findGroupsLoop nbrs univ todo visited acc) ∧
      (∀ x, nbrs x ≠ [] → x ∈ (findGroupsLoop nbrs univ todo visited acc).flatten) := by
  intro todo
  induction todo with
  | nil =>
    intro visited acc hcl hnd hpend hflat hgs hpair
    refine ⟨?_, ?_, ?_⟩
    · intro g hg
      exact hgs g (by simpa [findGroupsLoop] using hg)
    · simpa [findGroupsLoop] using hpair
    · intro x hx
      rcases hpend x hx with h | h
      · simpa [findGroupsLoop] using (hflat x).mpr h
      · cases h
  | cons idx todo ih =>
    intro visited acc hcl hnd hpend hflat hgs hpair
    rw [findGroupsLoop]
    split
    · rename_i hguard
      have hstart_univ : idx ∈ univ := by
        obtain ⟨b, hb⟩ := List.exists_mem_of_ne_nil _ hguard.2
        exact hsub b idx ((hsym b idx).mp hb)
      have hchar := dfsFrom_mem nbrs univ hdeg hsub hcl hstart_univ
      have hsymStep : Symmetric (Step nbrs) := fun a b h => (hsym b a).mp h
      have hdisj : ∀ x, Reach nbrs idx x → ¬ x ∈ visited := by
        intro x hr hx
        exact hguard.1 (reach_mem_closed hcl hx (Relation.ReflTransGen.symmetric hsymStep hr))
      have hgroupmem : ∀ x,
          (x ∈ (dfsFrom nbrs univ idx visited).filter (fun x => ¬ x ∈ visited)) ↔
            Reach nbrs idx x := by
        intro x
        rw [List.mem_filter]
        constructor
        · intro ⟨hx1, hx2⟩
          rcases (hchar x).mp hx1 with h | h
          · exact absurd h (by simpa using hx2)
          · exact h
        · intro hr
          exact ⟨(hchar x).mpr (Or.inr hr), by simpa using hdisj x hr⟩
      have hvnd' : (dfsFrom nbrs univ idx visited).Nodup :=
        dfsAux_nodup nbrs univ _ _ _ hnd
      have hgnodup : ((dfsFrom nbrs univ idx visited).filter (fun x => ¬ x ∈ visited)).Nodup :=
        hvnd'.filter _
      have hidxmem : idx ∈ (dfsFrom nbrs univ idx visited).filter (fun x => ¬ x ∈ visited) :=
        (hgroupmem idx).mpr Relation.ReflTransGen.refl
      have hg2 : 2 ≤ ((dfsFrom nbrs univ idx visited).filter (fun x => ¬ x ∈ visited)).length := by
        obtain ⟨b, hb⟩ := List.exists_mem_of_ne_nil _ hguard.2
        have hbmem : b ∈ (dfsFrom nbrs univ idx visited).filter (fun x => ¬ x ∈ visited) :=
          (hgroupmem b).mpr (Relation.ReflTransGen.single hb)
        have hbne : b ≠ idx := by
          intro h
          subst h
          exact hirr b hb
        exact two_le_length_of_mem_ne hbmem hidxmem hbne
      have hguniv : ∀ x ∈ (dfsFrom nbrs univ idx visited).filter (fun x => ¬ x ∈ visited),
          x ∈ univ := by
        intro x hx
        exact reach_mem_univ hsub hstart_univ ((hgroupmem x).mp hx)
      have hcl' : Closed nbrs (dfsFrom nbrs univ idx visited) := by
        intro v hv w hw
        rcases (hchar v).mp hv with h | h
        · exact (hchar w).mpr (Or.inl (hcl v h w hw))
        · exact (hchar w).mpr (Or.inr (h.tail hw))
      have hpend' : ∀ x, nbrs x ≠ [] → x ∈ dfsFrom nbrs univ idx visited ∨ x ∈ todo := by
        intro x hx
        rcases hpend x hx with h | h
        · exact Or.inl ((hchar x).mpr (Or.inl h))
        · rcases List.mem_cons.mp h with rfl | h
          · exact Or.inl ((hchar x).mpr (Or.inr Relation.ReflTransGen.refl))
          · exact Or.inr h
      have hflat' : ∀ x,
          x ∈ (acc ++ [(dfsFrom nbrs univ idx visited).filter (fun x => ¬ x ∈ visited)]).flatten ↔
            x ∈ dfsFrom nbrs univ idx visited := by
        intro x
        rw [List.flatten_append, List.mem_append]
        constructor
        · intro h
          rcases h with h | h
          · exact (hchar x).mpr (Or.inl ((hflat x).mp h))
          · exact (hchar x).mpr (Or.inr ((hgroupmem x).mp (by simpa using h)))
        · intro h
          rcases (hchar x).mp h with h' | h'
          · exact Or.inl ((hflat x).mpr h')
          · exact Or.inr (by simpa using (hgroupmem x).mpr h')
      have hgs' : ∀ g ∈ acc ++ [(dfsFrom nbrs univ idx visited).filter (fun x => ¬ x ∈ visited)],
          IsComponent nbrs g ∧ g.Nodup ∧ 2 ≤ g.length ∧ ∀ x ∈ g, x ∈ univ := by
        intro g hg
        rcases List.mem_append.mp hg with hg | hg
        · exact hgs g hg
        · rw [List.mem_singleton] at hg
          subst hg
          exact ⟨⟨idx, hguard.2, fun y => hgroupmem y⟩, hgnodup, hg2, hguniv⟩
      have hpair' : List.Pairwise (fun g h => ∀ x ∈ g, ¬ x ∈ h)
          (acc ++ [(dfsFrom nbrs univ idx visited).filter (fun x => ¬ x ∈ visited)]) := by
        rw [List.pairwise_append]
        refine ⟨hpair, List.pairwise_singleton _ _, ?_⟩
        intro g hg g' hg' x hxg
        rw [List.mem_singleton] at hg'
        subst hg'
        intro hxg'
        have hxv : x ∈ visited := (hflat x).mp (List.mem_flatten.mpr ⟨g, hg, hxg⟩)
        exact hdisj x ((hgroupmem x).mp hxg') hxv
      simp only [gt_iff_lt]
      split
      · exact ih (dfsFrom nbrs univ idx visited) _ hcl' hvnd' hpend' hflat' hgs' hpair'
      · rename_i hlen
        exact absurd (by omega : 1 < ((dfsFrom nbrs univ idx visited).filter
          (fun x => ¬ x ∈ visited)).length) hlen
    · rename_i hguard
      push_neg at hguard
      apply ih visited acc hcl hnd _ hflat hgs hpair
      intro x hx
      rcases hpend x hx with h | h
      · exact Or.inl h
      · rcases List.mem_cons.mp h with rfl | h
        · rcases Decidable.em (x ∈ visited) with hv | hv
          · exact Or.inl hv
          · exact absurd (hguard hv) hx
        · exact Or.inr h

/-- Unfolding of the key-sharing test: some configured key field is a
column of the table and holds the same non-absent, non-empty value in both
rows. -/
theorem shareKey_iff (t : Table) (kf : List String) (i j : Nat) :
    shareKey t kf i j = true ↔
      ∃ f ∈ kf, f ∈ t.cols ∧
        ∃ v, t.cell f i = some (some v) ∧ t.cell f j = some (some v) ∧ v ≠ "" := by
  rw [shareKey, List.any_eq_true]
  constructor
  · rintro ⟨f, hf, hcond⟩
    rw [Bool.and_eq_true] at hcond
    obtain ⟨hcols, hmatch⟩ := hcond
    refine ⟨f, hf, by simpa using hcols, ?_⟩
    rcases hci : t.cell f i with _ | ci
    · rw [hci] at hmatch; simp at hmatch
    rcases hcj : t.cell f j with _ | cj
    · rw [hci, hcj] at hmatch; simp at hmatch
    rcases ci with _ | v
    · rw [hci, hcj] at hmatch; simp at hmatch
    rcases cj with _ | w
    · rw [hci, hcj] at hmatch; simp at hmatch
    rw [hci, hcj] at hmatch
    simp only [Bool.and_eq_true, beq_iff_eq, bne_iff_ne, ne_eq] at hmatch
    exact ⟨v, rfl, by rw [hmatch.1], by simpa using hmatch.2⟩
  · rintro ⟨f, hf, hcols, v, hvi, hvj, hne⟩
    refine ⟨f, hf, ?_⟩
    rw [Bool.and_eq_true]
    refine ⟨by simpa using hcols, ?_⟩
    rw [hvi, hvj]
    simp [hne]

/-- A successful cell lookup means the index label is present. -/
theorem mem_indices_of_cell {t : Table} {f : String} {i : Nat} {c : Cell}
    (h : t.cell f i = some c) : i ∈ t.indices := by
  rw [Table.cell, Table.rowOf] at h
  rcases hfind : t.rows.find? (fun p => p.1 == i) with _ | p
  · rw [hfind] at h; simp at h
  · have hmem := List.mem_of_find?_eq_some hfind
    have hkey := List.find?_some hfind
    rw [beq_iff_eq] at hkey
    exact hkey ▸ List.mem_map.mpr ⟨p, hmem, rfl⟩

/-- Key sharing is symmetric. -/
theorem shareKey_symm (t : Table) (kf : List String) (i j : Nat) :
    shareKey t kf i j = true ↔ shareKey t kf j i = true := by
  rw [shareKey_iff, shareKey_iff]
  constructor
  · rintro ⟨f, hf, hc, v, h1, h2, h3⟩
    exact ⟨f, hf, hc, v, h2, h1, h3⟩
  · rintro ⟨f, hf, hc, v, h1, h2, h3⟩
    exact ⟨f, hf, hc, v, h2, h1, h3⟩

/-- Membership in the adjacency lists of `find_duplicate_groups`. -/
theorem mem_connections (t : Table) (kf : List String) (i j : Nat) :
    j ∈ connections t kf i ↔ j ∈ t.indices ∧ j ≠ i ∧ shareKey t kf i j = true := by
  rw [connections, List.mem_filter]
  simp [and_assoc]

/-- Adjacency lists stay inside the index list. -/
theorem connections_sub (t : Table) (kf : List String) :
    ∀ x, ∀ y ∈ connections t kf x, y ∈ t.indices := by
  intro x y hy
  exact ((mem_connections t kf x y).mp hy).1

/-- Adjacency lists are no longer than the index list. -/
theorem connections_deg (t : Table) (kf : List String) :
    ∀ x, (connections t kf x).length ≤ t.indices.length := by
  intro x
  exact (List.filter_sublist _).length_le

/-- Adjacency is symmetric. -/
theorem connections_symm (t : Table) (kf : List String) :
    ∀ a b, a ∈ connections t kf b ↔ b ∈ connections t kf a := by
  intro a b
  rw [mem_connections, mem_connections]
  constructor
  · rintro ⟨_, hne, hs⟩
    have hs' := (shareKey_symm t kf b a).mp hs
    obtain ⟨f, _, _, v, _, hv2, _⟩ := (shareKey_iff t kf a b).mp hs'
    exact ⟨mem_indices_of_cell hv2, hne.symm, hs'⟩
  · rintro ⟨_, hne, hs⟩
    have hs' := (shareKey_symm t kf a b).mp hs
    obtain ⟨f, _, _, v, _, hv2, _⟩ := (shareKey_iff t kf b a).mp hs'
    exact ⟨mem_indices_of_cell hv2, hne.symm, hs'⟩

/-- No self-loops: the pairwise connection loop links distinct indices
only. -/
theorem connections_irrefl (t : Table) (kf : List String) :
    ∀ a, ¬ a ∈ connections t kf a := by
  intro a ha
  exact ((mem_connections t kf a a).mp ha).2.1 rfl

/-- The groups of `find_duplicate_groups` are exactly the connected
components of the key-sharing graph: each produced group is a component,
duplicate-free, of size at least 2 and made of table indices; groups are
pairwise disjoint; and every linked index lands in some group. -/
theorem find_duplicate_groups_spec (t : Table) (kf : List String) :
    (∀ g ∈ find_duplicate_groups t kf,
        IsComponent (connections t kf) g ∧ g.Nodup ∧ 2 ≤ g.length ∧
          (∀ x ∈ g, x ∈ t.indices)) ∧
    List.Pairwise (fun g h => ∀ x ∈ g, ¬ x ∈ h) (find_duplicate_groups t kf) ∧
    (∀ x, connections t kf x ≠ [] → x ∈ (find_duplicate_groups t kf).flatten) := by
  apply findGroupsLoop_spec (connections t kf) t.indices (connections_deg t kf)
    (connections_sub t kf) (connections_symm t kf) (connections_irrefl t kf)
  · intro v hv
    cases hv
  · exact List.nodup_nil
  · intro x hx
    obtain ⟨b, hb⟩ := List.exists_mem_of_ne_nil _ hx
    exact Or.inr (connections_sub t kf b x (((connections_symm t kf) x b).mpr hb))
  · intro x
    simp
  · intro g hg
    cases hg
  · exact List.Pairwise.nil

/-- Every linked index owns a group: the component of `x` itself. -/
theorem component_mem_groups (t : Table) (kf : List String) (x : Nat)
    (hx : connections t kf x ≠ []) :
    ∃ g ∈ find_duplicate_groups t kf, ∀ y, y ∈ g ↔ Reach (connections t kf) x y := by
  obtain ⟨hcomp, _, hflat⟩ := find_duplicate_groups_spec t kf
  obtain ⟨g, hg, hxg⟩ := List.mem_flatten.mp (hflat x hx)
  obtain ⟨⟨x0, _, hmem⟩, _, _, _⟩ := hcomp g hg
  have hsymStep : Symmetric (Step (connections t kf)) :=
    fun a b h => (connections_symm t kf a b).mpr h
  have hx0x : Reach (connections t kf) x0 x := (hmem x).mp hxg
  refine ⟨g, hg, fun y => ?_⟩
  rw [hmem y]
  constructor
  · intro h
    exact Relation.ReflTransGen.trans (Relation.ReflTransGen.symmetric hsymStep hx0x) h
  · intro h
    exact Relation.ReflTransGen.trans hx0x h

/-- C1: if records `a` and `b` share a non-absent normalized value on some
key field, and `b` and `c` share one on a (possibly different) key field,
then `find_duplicate_groups` places `a`, `b` and `c` in the same duplicate
group. -/
theorem C1_transitive_closure_grouping (t : Table) (kf : List String) (a b c : Nat)
    (hab_ne : a ≠ b) (hbc_ne : b ≠ c)
    (hab : shareKey t kf a b = true) (hbc : shareKey t kf b c = true) :
    ∃ g ∈ find_duplicate_groups t kf, a ∈ g ∧ b ∈ g ∧ c ∈ g := by
  have hbconn : b ∈ connections t kf a := by
    rw [mem_connections]
    obtain ⟨f, _, _, v, _, hv2, _⟩ := (shareKey_iff t kf a b).mp hab
    exact ⟨mem_indices_of_cell hv2, hab_ne.symm, hab⟩
  have hcconn : c ∈ connections t kf b := by
    rw [mem_connections]
    obtain ⟨f, _, _, v, _, hv2, _⟩ := (shareKey_iff t kf b c).mp hbc
    exact ⟨mem_indices_of_cell hv2, hbc_ne.symm, hbc⟩
  obtain ⟨g, hg, hmem⟩ := component_mem_groups t kf a (List.ne_nil_of_mem hbconn)
  exact ⟨g, hg, (hmem a).mpr Relation.ReflTransGen.refl,
    (hmem b).mpr (Relation.ReflTransGen.single hbconn),
    (hmem c).mpr (Relation.ReflTransGen.tail (Relation.ReflTransGen.single hbconn) hcconn)⟩

/-- C1 witness: Scenario 3 — records 2 and 1 share the normalized name,
records 1 and 3 the normalized phone, and the three records form exactly
one group of size 3. -/
theorem C1_transitive_closure_grouping_witness :
    ((2 : Nat) ≠ 1 ∧ (1 : Nat) ≠ 3 ∧
      shareKey Fixtures.scenarioClean defaultKeyFields 2 1 = true ∧
      shareKey Fixtures.scenarioClean defaultKeyFields 1 3 = true) ∧
    find_duplicate_groups Fixtures.scenarioClean defaultKeyFields = [[3, 2, 1]] ∧
    (∃ g ∈ find_duplicate_groups Fixtures.scenarioClean defaultKeyFields,
      2 ∈ g ∧ 1 ∈ g ∧ 3 ∈ g) :=
  ⟨⟨by decide, by decide, by decide, by decide⟩, by decide,
    C1_transitive_closure_grouping Fixtures.scenarioClean defaultKeyFields 2 1 3
      (by decide) (by decide) (by decide) (by decide)⟩

/-- Splitting a list's length by a predicate. -/
theorem length_filter_prop_split {α : Type} (l : List α) (q : α → Prop) [DecidablePred q] :
    (l.filter (fun x => q x)).length + (l.filter (fun x => ¬ q x)).length = l.length := by
  induction l with
  | nil => simp
  | cons a l ih =>
    by_cases h : q a <;> simp [List.filter_cons, h, ← ih] <;> omega

/-- The untouched branch of `merge_duplicate_records` keeps exactly the
rows failing the membership test. -/
theorem length_filterMap_if {α β : Type} (l : List α) (q : α → Prop) [DecidablePred q]
    (g : α → β) :
    (l.filterMap (fun p => if q p then none else some (g p))).length =
      (l.filter (fun p => ¬ q p)).length := by
  induction l with
  | nil => simp
  | cons a l ih =>
    by_cases h : q a <;> simp [List.filterMap_cons, List.filter_cons, h, ih]

/-- Pairwise-disjoint duplicate-free lists flatten to a duplicate-free
list. -/
theorem flatten_nodup {L : List (List Nat)} (h1 : ∀ g ∈ L, g.Nodup)
    (h2 : List.Pairwise (fun g h => ∀ x ∈ g, ¬ x ∈ h) L) : L.flatten.Nodup := by
  induction L with
  | nil => simp
  | cons g gs ih =>
    rw [List.flatten_cons]
    rcases List.pairwise_cons.mp h2 with ⟨hhead, htail⟩
    apply List.Nodup.append (h1 g (List.mem_cons_self _ _))
      (ih (fun g' hg' => h1 g' (List.mem_cons_of_mem _ hg')) htail)
    intro a hag haf
    obtain ⟨h, hh, hah⟩ := List.mem_flatten.mp haf
    exact hhead h hh a hag hah

/-- A duplicate-free sublist-by-membership of a duplicate-free list has
the length of its member set: filtering `t.indices` down to the members of
a duplicate-free `F ⊆ t.indices` yields a permutation of `F`. -/
theorem length_filter_mem_of_nodup {idx F : List Nat} (hidx : idx.Nodup) (hF : F.Nodup)
    (hsub : ∀ x ∈ F, x ∈ idx) :
    (idx.filter (fun x => x ∈ F)).length = F.length := by
  apply List.Perm.length_eq
  apply List.perm_of_nodup_nodup_toFinset_eq (hidx.filter _) hF
  ext x
  simp only [List.mem_toFinset, List.mem_filter, decide_eq_true_eq]
  exact ⟨fun h => h.2, fun h => ⟨hsub x h, h⟩⟩

/-- C2: the groups of `find_duplicate_groups` are pairwise disjoint and of
size at least 2, `merge_duplicate_records` emits one record per group plus
one per untouched row, and every input record is accounted for exactly
once: input count = untouched count + sum of group sizes. -/
theorem C2_partition_property (t : Table) (kf : List String) (merge_fields : List String)
    (hnd : t.indices.Nodup) :
    List.Pairwise (fun g h => ∀ x ∈ g, ¬ x ∈ h) (find_duplicate_groups t kf) ∧
    (∀ g ∈ find_duplicate_groups t kf, 2 ≤ g.length) ∧
    (RecordMerger.merge_duplicate_records t (find_duplicate_groups t kf) merge_fields).length =
      (find_duplicate_groups t kf).length +
        RecordMerger.untouchedCount t (find_duplicate_groups t kf) ∧
    t.rows.length =
      RecordMerger.untouchedCount t (find_duplicate_groups t kf) +
        ((find_duplicate_groups t kf).map List.length).sum := by
  obtain ⟨hcomp, hpair, _⟩ := find_duplicate_groups_spec t kf
  refine ⟨hpair, fun g hg => (hcomp g hg).2.2.1, ?_, ?_⟩
  · simp only [RecordMerger.merge_duplicate_records, RecordMerger.untouchedCount,
      List.length_append, List.length_map]
    rw [length_filterMap_if]
  · have hflatnd : (find_duplicate_groups t kf).flatten.Nodup :=
      flatten_nodup (fun g hg => (hcomp g hg).2.1) hpair
    have hflatsub : ∀ x ∈ (find_duplicate_groups t kf).flatten, x ∈ t.indices := by
      intro x hx
      obtain ⟨g, hg, hxg⟩ := List.mem_flatten.mp hx
      exact (hcomp g hg).2.2.2 x hxg
    have hsum : ((find_duplicate_groups t kf).map List.length).sum =
        (find_duplicate_groups t kf).flatten.length := (List.length_flatten _).symm
    have hsplit := length_filter_prop_split t.rows
      (fun p => p.1 ∈ (find_duplicate_groups t kf).flatten)
    have hrowsidx : (t.rows.filter (fun p => p.1 ∈ (find_duplicate_groups t kf).flatten)).length =
        (t.indices.filter (fun x => x ∈ (find_duplicate_groups t kf).flatten)).length := by
      rw [Table.indices, List.filter_map, List.length_map]
      rfl
    have hlen := length_filter_mem_of_nodup hnd hflatnd hflatsub
    rw [RecordMerger.untouchedCount, hsum]
    omega

/-- C2 witness: the Scenario 3 table has duplicate-free indices, its three
records form one group, and the counts balance: one output record, one
group, zero untouched, three inputs absorbed. -/
theorem C2_partition_property_witness :
    Fixtures.scenarioClean.indices.Nodup ∧
    (RecordMerger.merge_duplicate_records Fixtures.scenarioClean
        (find_duplicate_groups Fixtures.scenarioClean defaultKeyFields)
        ["姓名", "联系方式"]).length =
      (find_duplicate_groups Fixtures.scenarioClean defaultKeyFields).length +
        RecordMerger.untouchedCount Fixtures.scenarioClean
          (find_duplicate_groups Fixtures.scenarioClean defaultKeyFields) ∧
    Fixtures.scenarioClean.rows.length =
      RecordMerger.untouchedCount Fixtures.scenarioClean
          (find_duplicate_groups Fixtures.scenarioClean defaultKeyFields) +
        ((find_duplicate_groups Fixtures.scenarioClean defaultKeyFields).map List.length).sum :=
  ⟨by decide,
    (C2_partition_property Fixtures.scenarioClean defaultKeyFields
      ["姓名", "联系方式"] (by decide)).2.2.1,
    (C2_partition_property Fixtures.scenarioClean defaultKeyFields
      ["姓名", "联系方式"] (by decide)).2.2.2⟩

/-- With duplicate-free index labels, a row lookup succeeds exactly on the
pairs the table holds. -/
theorem rowOf_eq_some_iff {t : Table} (hnd : t.indices.Nodup) (i : Nat) (r : Row) :
    t.rowOf i = some r ↔ (i, r) ∈ t.rows := by
  constructor
  · intro h
    rw [Table.rowOf] at h
    rcases hfind : t.rows.find? (fun p => p.1 == i) with _ | p
    · rw [hfind] at h; simp at h
    · rw [hfind] at h
      simp only [Option.map_some', Option.some_inj] at h
      have hmem := List.mem_of_find?_eq_some hfind
      have hkey := List.find?_some hfind
      rw [beq_iff_eq] at hkey
      have hp : p = (i, r) := by
        rcases p with ⟨pi, pr⟩
        simp only [Prod.mk.injEq]
        exact ⟨hkey, h⟩
      exact hp ▸ hmem
  · intro h
    have hexists : (t.rows.find? (fun p => p.1 == i)).isSome :=
      List.find?_isSome.mpr ⟨(i, r), h, by simp⟩
    rcases hfind : t.rows.find? (fun p => p.1 == i) with _ | p
    · rw [hfind] at hexists; simp at hexists
    · have hmem := List.mem_of_find?_eq_some hfind
      have hkey := List.find?_some hfind
      rw [beq_iff_eq] at hkey
      have hinj := List.inj_on_of_nodup_map hnd
      have hp : p = (i, r) := hinj hmem h (by simpa using hkey)
      rw [Table.rowOf, hfind, hp]
      rfl

/-- Permuting the rows of a table with duplicate-free index labels leaves
every cell lookup unchanged. -/
theorem cell_eq_of_perm {t t' : Table} (hperm : t.rows.Perm t'.rows)
    (hnd : t.indices.Nodup) : ∀ f i, t.cell f i = t'.cell f i := by
  have hnd' : t'.indices.Nodup := ((hperm.map Prod.fst).nodup_iff).mp hnd
  intro f i
  rcases hrow : t.rowOf i with _ | r
  · rw [Table.rowOf] at hrow
    rcases hfind : t.rows.find? (fun p => p.1 == i) with _ | p
    · have hnone := List.find?_eq_none.mp hfind
      have hfind' : t'.rows.find? (fun p => p.1 == i) = none :=
        List.find?_eq_none.mpr (fun p hp => hnone p (hperm.mem_iff.mpr hp))
      rw [Table.cell, Table.cell, Table.rowOf, Table.rowOf, hfind, hfind']
    · rw [hfind] at hrow; simp at hrow
  · have hmem := (rowOf_eq_some_iff hnd i r).mp hrow
    have hrow' : t'.rowOf i = some r :=
      (rowOf_eq_some_iff hnd' i r).mpr (hperm.mem_iff.mp hmem)
    rw [Table.cell, Table.cell, hrow, hrow']

/-- Permuting rows leaves the similarity graph unchanged (as a membership
relation). -/
theorem mem_connections_of_perm {t t' : Table} (kf : List String)
    (hcols : t.cols = t'.cols) (hperm : t.rows.Perm t'.rows) (hnd : t.indices.Nodup) :
    ∀ i j, j ∈ connections t kf i ↔ j ∈ connections t' kf i := by
  have hcell := cell_eq_of_perm hperm hnd
  have hshare : ∀ i j, shareKey t kf i j = true ↔ shareKey t' kf i j = true := by
    intro i j
    rw [shareKey_iff, shareKey_iff]
    constructor
    · rintro ⟨f, hf, hc, v, h1, h2, h3⟩
      exact ⟨f, hf, hcols ▸ hc, v, (hcell f i) ▸ h1, (hcell f j) ▸ h2, h3⟩
    · rintro ⟨f, hf, hc, v, h1, h2, h3⟩
      exact ⟨f, hf, hcols ▸ hc, v, (hcell f i).symm ▸ h1, (hcell f j).symm ▸ h2, h3⟩
  intro i j
  rw [mem_connections, mem_connections]
  have hidx : j ∈ t.indices ↔ j ∈ t'.indices := (hperm.map Prod.fst).mem_iff
  rw [hidx, hshare]

/-- Every group of the original table reappears, as a set, among the
groups of the permuted table. -/
theorem groups_sameSet_of_perm {t t' : Table} (kf : List String)
    (hcols : t.cols = t'.cols) (hperm : t.rows.Perm t'.rows) (hnd : t.indices.Nodup) :
    ∀ g' ∈ find_duplicate_groups t kf,
      ∃ g'' ∈ find_duplicate_groups t' kf, SameSet g' g'' := by
  have hconn := mem_connections_of_perm kf hcols hperm hnd
  have hreach : ∀ x y, Reach (connections t kf) x y ↔ Reach (connections t' kf) x y := by
    intro x y
    constructor
    · exact Relation.ReflTransGen.mono (fun a b h => (hconn a b).mp h)
    · exact Relation.ReflTransGen.mono (fun a b h => (hconn a b).mpr h)
  intro g' hg'
  obtain ⟨hcomp, _, _⟩ := find_duplicate_groups_spec t kf
  obtain ⟨⟨x0, hx0, hmem⟩, _, _, _⟩ := hcomp g' hg'
  have hx0' : connections t' kf x0 ≠ [] := by
    obtain ⟨b, hb⟩ := List.exists_mem_of_ne_nil _ hx0
    exact List.ne_nil_of_mem ((hconn x0 b).mp hb)
  obtain ⟨g'', hg'', hmem''⟩ := component_mem_groups t' kf x0 hx0'
  refine ⟨g'', hg'', fun y => ?_⟩
  rw [hmem y, hmem'' y, hreach]

/-- C9: permuting the input rows yields the same set of duplicate groups,
where groups are compared as sets of original record identities. -/
theorem C9_order_invariance (t t' : Table) (kf : List String)
    (hcols : t.cols = t'.cols) (hperm : t.rows.Perm t'.rows) (hnd : t.indices.Nodup) :
    ∀ g, (∃ g' ∈ find_duplicate_groups t kf, SameSet g g') ↔
      (∃ g' ∈ find_duplicate_groups t' kf, SameSet g g') := by
  have hnd' : t'.indices.Nodup := ((hperm.map Prod.fst).nodup_iff).mp hnd
  intro g
  constructor
  · rintro ⟨g', hg', hset⟩
    obtain ⟨g'', hg'', hset''⟩ := groups_sameSet_of_perm kf hcols hperm hnd g' hg'
    exact ⟨g'', hg'', fun x => (hset x).trans (hset'' x)⟩
  · rintro ⟨g', hg', hset⟩
    obtain ⟨g'', hg'', hset''⟩ := groups_sameSet_of_perm kf hcols.symm hperm.symm hnd' g' hg'
    exact ⟨g'', hg'', fun x => (hset x).trans (hset'' x)⟩

/-- C9 witness: Scenario 3's table with its rows rotated yields the same
single group as a set. -/
theorem C9_order_invariance_witness :
    (Fixtures.scenarioTable.cols =
      (Table.mk ["姓名", "联系方式"]
        [(3, Fixtures.scenarioRow3), (1, Fixtures.scenarioRow1), (2, Fixtures.scenarioRow2)]).cols) ∧
    Fixtures.scenarioTable.indices.Nodup ∧
    ((∃ g' ∈ find_duplicate_groups Fixtures.scenarioTable DataProcessor.defaultKeyFields,
        SameSet [1, 2, 3] g') ↔
      (∃ g' ∈ find_duplicate_groups
          (Table.mk ["姓名", "联系方式"]
            [(3, Fixtures.scenarioRow3), (1, Fixtures.scenarioRow1), (2, Fixtures.scenarioRow2)])
          DataProcessor.defaultKeyFields,
        SameSet [1, 2, 3] g')) :=
  ⟨rfl, by decide,
    C9_order_invariance Fixtures.scenarioTable
      (Table.mk ["姓名", "联系方式"]
        [(3, Fixtures.scenarioRow3), (1, Fixtures.scenarioRow1), (2, Fixtures.scenarioRow2)])
      DataProcessor.defaultKeyFields rfl
      (by
        have h := @List.perm_append_comm (Nat × Row)
          [(1, Fixtures.scenarioRow1), (2, Fixtures.scenarioRow2)]
          [(3, Fixtures.scenarioRow3)]
        simpa using h)
      (by decide) [1, 2, 3]⟩

end DataProcessor

/-- C3 counterexample: merging a duplicate group of size 1 does not return
the sole record's values verbatim — the phone field comes back normalized
(`"138-0000"` becomes `"1380000"`). -/
theorem C3_singleton_merge_counterexample :
    RecordMerger.merge_duplicate_records Fixtures.contactTable [[0]] ["联系方式"] =
      [[("联系方式", some "1380000")]] ∧
    Fixtures.contactRow "联系方式" = some "138-0000" ∧
    ("1380000" : String) ≠ "138-0000" := by
  refine ⟨by decide, by decide, by decide⟩

/-- C3 amended: merging a size-1 group yields, on each merged field, the
field's one-value merge of the sole record's value; when every value is
already canonical (a fixed point of its field's merge), the merged record
is identical to the record's values on the merged fields. -/
theorem C3_singleton_merge_amended (cols : List String) (r : Row) (merge_fields : List String)
    (hmem : ∀ f ∈ merge_fields, f ∈ cols)
    (hcanon : ∀ f ∈ merge_fields, ∃ s, r f = some s ∧
      RecordMerger.mergeFieldValue f [some s] = s) :
    RecordMerger.merge_duplicate_records ⟨cols, [(0, r)]⟩ [[0]] merge_fields =
      [merge_fields.map (fun f => (f, r f))] := by
  have hmg : ∀ (mf : List String), (∀ f ∈ mf, f ∈ cols) →
      (∀ f ∈ mf, ∃ s, r f = some s ∧ RecordMerger.mergeFieldValue f [some s] = s) →
      RecordMerger.mergeGroup ⟨cols, [(0, r)]⟩ [0] mf = mf.map (fun f => (f, r f)) := by
    intro mf
    induction mf with
    | nil => intro _ _; rfl
    | cons f fs ih =>
      intro h1 h2
      rw [RecordMerger.mergeGroup, List.filterMap_cons]
      rw [if_pos (h1 f (List.mem_cons_self _ _))]
      obtain ⟨s, hs, hm⟩ := h2 f (List.mem_cons_self _ _)
      have hgv : RecordMerger.groupValues ⟨cols, [(0, r)]⟩ [0] f = [r f] := rfl
      have hval : some (RecordMerger.mergeFieldValue f
          (RecordMerger.groupValues ⟨cols, [(0, r)]⟩ [0] f)) = r f := by
        rw [hgv, hs, hm]
      rw [List.map_cons]
      have ihr := ih (fun g hg => h1 g (List.mem_cons_of_mem _ hg))
        (fun g hg => h2 g (List.mem_cons_of_mem _ hg))
      rw [RecordMerger.mergeGroup] at ihr
      rw [ihr, hval]
  rw [RecordMerger.merge_duplicate_records]
  simp only [List.map_cons, List.map_nil, List.flatten]
  rw [hmg merge_fields hmem hcanon]
  have huntouched : Table.rows ⟨cols, [(0, r)]⟩ =  [(0, r)] := rfl
  simp [huntouched]

/-- C3 witness: a one-record table with the canonical name `张三` merges,
as a singleton group, to exactly its own values. -/
theorem C3_singleton_merge_amended_witness :
    (∀ f ∈ ["姓名"], f ∈ Fixtures.nameTable.cols) ∧
    (Fixtures.nameRow "姓名" = some "张三" ∧
      RecordMerger.mergeFieldValue "姓名" [some "张三"] = "张三") ∧
    RecordMerger.merge_duplicate_records Fixtures.nameTable [[0]] ["姓名"] =
      [["姓名"].map (fun f => (f, Fixtures.nameRow f))] :=
  ⟨by decide, ⟨by decide, by decide⟩,
    C3_singleton_merge_amended ["姓名"] Fixtures.nameRow ["姓名"] (by decide)
      (by
        intro f hf
        have hfe : f = "姓名" := by simpa using hf
        subst hfe
        exact ⟨"张三", rfl, by decide⟩)⟩

/-- C5 counterexample: the resolver's general-field drop test keeps
`"无"`, yet the shared empty-value predicate calls it empty, so the two
are not the same predicate. -/
theorem C5_drop_predicate_counterexample :
    DataMerger.resolverDrops (some "无") = false ∧
    DataNormalizer.is_empty_value (some "无") = true ∧
    DataValidator.check_field_completeness (some "无") = false := by
  refine ⟨by decide, by decide, by decide⟩

/-- C5 amended: completeness checking is exactly the negation of
`is_empty_value`, and the resolver's general-field drop test is strictly
stronger than `is_empty_value`: whatever it drops (null or blank after
trimming) the predicate calls empty, but not conversely (tokens such as
`"无"`, `"nan"`, `"/"` are kept by the resolver). -/
theorem C5_drop_predicate_amended (v : Cell) :
    DataValidator.check_field_completeness v = ! DataNormalizer.is_empty_value v ∧
    (DataMerger.resolverDrops v = true → DataNormalizer.is_empty_value v = true) := by
  refine ⟨rfl, ?_⟩
  intro hdrop
  match v with
  | none => rfl
  | some s =>
    rw [DataMerger.resolverDrops, DataMerger.generalKeep] at hdrop
    by_cases h : pyStrip s ≠ ""
    · rw [if_pos h] at hdrop
      simp at hdrop
    · rw [DataNormalizer.is_empty_value]
      push_neg at h
      rw [if_pos h]

/-- C5 witness: the amended claim at the null value, whose drop hypothesis
holds. -/
theorem C5_drop_predicate_amended_witness :
    (DataValidator.check_field_completeness none = ! DataNormalizer.is_empty_value none ∧
      (DataMerger.resolverDrops none = true → DataNormalizer.is_empty_value none = true)) ∧
    DataMerger.resolverDrops none = true ∧ DataNormalizer.is_empty_value none = true :=
  ⟨C5_drop_predicate_amended none, by decide, (C5_drop_predicate_amended none).2 (by decide)⟩

/-- C4 counterexample: phone normalization of `"138-1234-5678.0"` does not
return `"13812345678"` — the hyphens defeat the `.0`-artifact branch, and
the digit strip keeps the trailing `0`. -/
theorem C4_phone_scenario_counterexample :
    DataNormalizer.normalize_contact (some "138-1234-5678.0") ≠ some "13812345678" := by
  decide

/-- C4 amended: `"138-1234-5678.0"` normalizes to `"138123456780"`
(12 digits, non-conforming); the `.0` artifact is dropped only when the
value consists solely of digits and dots, as in `"13812345678.0"`. -/
theorem C4_phone_scenario_amended :
    DataNormalizer.normalize_contact (some "138-1234-5678.0") = some "138123456780" ∧
    DataNormalizer.normalize_contact (some "13812345678.0") = some "13812345678" := by
  refine ⟨by decide, by decide⟩

/-- C7: the raw value `"无"` is absent for the phone field but is not a
recognized empty token for the name field — name normalization returns the
literal `"无"`, which survives the CJK/ASCII filter. -/
theorem C7_empty_token_asymmetry :
    DataNormalizer.normalize_contact (some "无") = none ∧
    DataNormalizer.normalize_name (some "无") = some "无" := by
  refine ⟨by decide, by decide⟩

/-- The non-collapsing step of `collapseJi`. -/
theorem collapseJi_cons_ne (c : Char) (rest : List Char)
    (h : ¬ (c = '级' ∧ rest.head? = some '级')) :
    YearFormatter.collapseJi (c :: rest) = c :: YearFormatter.collapseJi rest := by
  rw [YearFormatter.collapseJi.eq_def]
  split
  · rename_i heq
    exact absurd heq (List.cons_ne_nil _ _)
  · rename_i heq
    rw [List.cons_eq_cons] at heq
    exact absurd (And.intro heq.1 (by rw [heq.2]; rfl)) h
  · rename_i heq
    rw [List.cons_eq_cons] at heq
    rw [heq.1, heq.2]

/-- Collapsing preserves the head character. -/
theorem collapseJi_head : ∀ l : List Char, (YearFormatter.collapseJi l).head? = l.head? := by
  intro l
  induction l using YearFormatter.collapseJi.induct with
  | case1 => rfl
  | case2 rest ih => rw [YearFormatter.collapseJi]; exact ih
  | case3 c rest h ih =>
    by_cases hc : c = '级' ∧ rest.head? = some '级'
    · obtain ⟨hc1, hc2⟩ := hc
      rcases rest with _ | ⟨d, r⟩
      · simp at hc2
      · have hd : d = '级' := by simpa using hc2
        exact (h r hc1 (by rw [hd])).elim
    · rw [collapseJi_cons_ne c rest hc]
      simp

/-- The collapsed string never contains two consecutive `级`. -/
theorem collapseJi_noDouble : ∀ l : List Char,
    YearFormatter.noDoubleJi (YearFormatter.collapseJi l) = true := by
  intro l
  induction l using YearFormatter.collapseJi.induct with
  | case1 => rfl
  | case2 rest ih => rw [YearFormatter.collapseJi]; exact ih
  | case3 c rest h ih =>
    by_cases hc : c = '级' ∧ rest.head? = some '级'
    · obtain ⟨hc1, hc2⟩ := hc
      rcases rest with _ | ⟨d, r⟩
      · simp at hc2
      · have hd : d = '级' := by simpa using hc2
        exact (h r hc1 (by rw [hd])).elim
    · rw [collapseJi_cons_ne c rest hc]
      rcases hcr : YearFormatter.collapseJi rest with _ | ⟨d, r⟩
      · rfl
      · rw [YearFormatter.noDoubleJi]
        rw [hcr] at ih
        rw [ih, Bool.and_true]
        have hdhead : rest.head? = some d := by
          rw [← collapseJi_head rest, hcr]
          rfl
        simp only [Bool.not_eq_eq_eq_not, Bool.not_true, decide_eq_false_iff_not]
        intro ⟨h1, h2⟩
        exact hc ⟨h1, by rw [hdhead, h2]⟩

/-- Dropping a prefix preserves the absence of double `级`. -/
theorem noDoubleJi_append_right : ∀ (pre suf : List Char),
    YearFormatter.noDoubleJi (pre ++ suf) = true → YearFormatter.noDoubleJi suf = true := by
  intro pre
  induction pre with
  | nil => intro suf h; exact h
  | cons a pre ih =>
    intro suf h
    apply ih
    rcases hshape : pre ++ suf with _ | ⟨b, r⟩
    · rfl
    · rw [List.cons_append, hshape, YearFormatter.noDoubleJi, Bool.and_eq_true] at h
      exact h.2

/-- Dropping a suffix preserves the absence of double `级`. -/
theorem noDoubleJi_append_left : ∀ (l post : List Char),
    YearFormatter.noDoubleJi (l ++ post) = true → YearFormatter.noDoubleJi l = true := by
  intro l
  induction l with
  | nil => intro _ _; rfl
  | cons a l ih =>
    intro post h
    rcases l with _ | ⟨b, r⟩
    · rfl
    · rw [List.cons_append, List.cons_append] at h
      rw [YearFormatter.noDoubleJi] at h ⊢
      rw [Bool.and_eq_true] at h
      rw [Bool.and_eq_true]
      refine ⟨h.1, ih post ?_⟩
      rw [List.cons_append]
      exact h.2

/-- Stripping whitespace preserves the absence of double `级`: the
stripped list is a contiguous piece of the original. -/
theorem noDoubleJi_stripL {l : List Char}
    (h : YearFormatter.noDoubleJi l = true) :
    YearFormatter.noDoubleJi (stripL l) = true := by
  have hsuffix : ∃ pre, l = pre ++ l.dropWhile isPyWS :=
    ⟨l.takeWhile isPyWS, (List.takeWhile_append_dropWhile _ _).symm⟩
  obtain ⟨pre, hpre⟩ := hsuffix
  have h1 : YearFormatter.noDoubleJi (l.dropWhile isPyWS) = true :=
    noDoubleJi_append_right pre _ (hpre ▸ h)
  have hsuffix2 : ∃ pre2, (l.dropWhile isPyWS).reverse =
      pre2 ++ ((l.dropWhile isPyWS).reverse.dropWhile isPyWS) :=
    ⟨(l.dropWhile isPyWS).reverse.takeWhile isPyWS, (List.takeWhile_append_dropWhile _ _).symm⟩
  obtain ⟨pre2, hpre2⟩ := hsuffix2
  have hsplit : l.dropWhile isPyWS = stripL l ++ pre2.reverse := by
    rw [stripL]
    calc l.dropWhile isPyWS = (l.dropWhile isPyWS).reverse.reverse := (List.reverse_reverse _).symm
      _ = (pre2 ++ ((l.dropWhile isPyWS).reverse.dropWhile isPyWS)).reverse := by rw [← hpre2]
      _ = ((l.dropWhile isPyWS).reverse.dropWhile isPyWS).reverse ++ pre2.reverse := by
            rw [List.reverse_append]
  exact noDoubleJi_append_left _ _ (hsplit ▸ h1)

/-- C8 counterexample: the cohort normalizer used for linkage and merging
(`normalize_class_info`) has no collapse pass — `"22级级"` rewrites to
`"2022级级"`, which contains two consecutive marker glyphs. -/
theorem C8_collapse_counterexample :
    DataNormalizer.normalize_class_info (some "22级级") = some "2022级级" ∧
    YearFormatter.noDoubleJi "2022级级".data = false := by
  refine ⟨by decide, by decide⟩

/-- C8 amended: the pass collapsing runs of `级` belongs to the year-format
fixer `fix_year_format` (applied to the merged column, after merging), not
to `normalize_class_info`; the fixer's ordered rewrite ends with that
collapse followed by a strip, so its output never contains two consecutive
marker glyphs. -/
theorem C8_collapse_amended (s : String) :
    YearFormatter.noDoubleJi ((YearFormatter.fix_year_format (some s)).getD "").data = true := by
  rw [YearFormatter.fix_year_format]
  by_cases h : s = ""
  · rw [if_pos h, h]
    rfl
  · rw [if_neg h]
    exact noDoubleJi_stripL (collapseJi_noDouble _)

/-- Adding a derived column keeps every existing column. -/
theorem mem_cols_addDerived {t : Table} {x : String} (flag : Bool) (src dst : String)
    (norm : Cell → Cell) (h : x ∈ t.cols) :
    x ∈ (DataProcessor.addDerived t flag src dst norm).cols := by
  rw [DataProcessor.addDerived]
  split
  · exact List.mem_append_left _ h
  · exact h

/-- Adding a derived column adds its name when the source column exists. -/
theorem dst_mem_addDerived {t : Table} (src dst : String) (norm : Cell → Cell)
    (h : src ∈ t.cols) :
    dst ∈ (DataProcessor.addDerived t true src dst norm).cols := by
  rw [DataProcessor.addDerived]
  rw [if_pos ⟨rfl, h⟩]
  exact List.mem_append_right _ (List.mem_singleton.mpr rfl)

/-- Adding a derived column keeps the row count. -/
theorem addDerived_rows_length (t : Table) (flag : Bool) (src dst : String)
    (norm : Cell → Cell) :
    (DataProcessor.addDerived t flag src dst norm).rows.length = t.rows.length := by
  rw [DataProcessor.addDerived]
  split
  · exact List.length_map _ _
  · rfl

/-- The source column survives one derived-column addition. -/
theorem src_mem_after {t : Table} {x : String} (flag : Bool) (src dst : String)
    (norm : Cell → Cell) (h : x ∈ t.cols) :
    x ∈ (DataProcessor.addDerived t flag src dst norm).cols :=
  mem_cols_addDerived flag src dst norm h

/-- C6 counterexample: the pipeline is not total — on a zero-record table
the compression-rate statistic divides by the cleaned record count and the
run aborts with a `ZeroDivisionError`. -/
theorem C6_empty_input_counterexample :
    DuplicateMerger.merge_duplicates Fixtures.emptyTable = Except.error "ZeroDivisionError" :=
  rfl

/-- C6 amended: for every table that carries the name, phone and IM-id
columns and has at least one record — in particular when zero duplicate
groups are found — the merge pipeline completes and returns a merged
result; only the zero-record table aborts (the compression-rate division),
and a table missing one of the three columns fails the progress printout's
column lookup. -/
theorem C6_pipeline_totality (t : Table)
    (hn : "姓名" ∈ t.cols) (hc : "联系方式" ∈ t.cols) (hq : "QQ号" ∈ t.cols)
    (hne : t.rows ≠ []) :
    ∃ r, DuplicateMerger.merge_duplicates t = Except.ok r := by
  rw [DuplicateMerger.merge_duplicates]
  have h1 : "姓名_标准" ∈ (DataProcessor.clean_dataframe t true true true true).cols := by
    rw [DataProcessor.clean_dataframe]
    exact mem_cols_addDerived _ _ _ _
      (dst_mem_addDerived _ _ _
        (mem_cols_addDerived _ _ _ _ (mem_cols_addDerived _ _ _ _ hn)))
  have h2 : "联系方式_标准" ∈ (DataProcessor.clean_dataframe t true true true true).cols := by
    rw [DataProcessor.clean_dataframe]
    exact mem_cols_addDerived _ _ _ _
      (mem_cols_addDerived _ _ _ _
        (mem_cols_addDerived _ _ _ _ (dst_mem_addDerived _ _ _ hc)))
  have h3 : "QQ号_标准" ∈ (DataProcessor.clean_dataframe t true true true true).cols := by
    rw [DataProcessor.clean_dataframe]
    exact mem_cols_addDerived _ _ _ _
      (mem_cols_addDerived _ _ _ _
        (dst_mem_addDerived _ _ _ (mem_cols_addDerived _ _ _ _ hq)))
  rw [if_neg (not_not_intro ⟨h1, h2, h3⟩)]
  have hlen : (DataProcessor.clean_dataframe t true true true true).rows.length ≠ 0 := by
    rw [DataProcessor.clean_dataframe]
    rw [addDerived_rows_length, addDerived_rows_length, addDerived_rows_length,
      addDerived_rows_length]
    simpa [List.length_eq_zero] using hne
  rw [dif_neg hlen]
  exact ⟨_, rfl⟩

/-- C6 witness: a one-record table with the three standard columns (and no
duplicate groups at all) completes the pipeline. -/
theorem C6_pipeline_totality_witness :
    ("姓名" ∈ Fixtures.oneTable.cols ∧ "联系方式" ∈ Fixtures.oneTable.cols ∧
      "QQ号" ∈ Fixtures.oneTable.cols ∧ Fixtures.oneTable.rows ≠ []) ∧
    ∃ r, DuplicateMerger.merge_duplicates Fixtures.oneTable = Except.ok r :=
  ⟨⟨by decide, by decide, by decide, List.cons_ne_nil _ _⟩,
    C6_pipeline_totality Fixtures.oneTable (by decide) (by decide) (by decide)
      (List.cons_ne_nil _ _)⟩

/-- The dedup loop of `merge_club_info` appends a duplicate-free,
blank-free subsequence of its input to the accumulator. -/
theorem clubLoop_spec : ∀ (l acc : List String), acc.Nodup → ¬ "" ∈ acc →
    ∃ s, DataMerger.clubLoop l acc = acc ++ s ∧ List.Sublist s l ∧
      (acc ++ s).Nodup ∧ ¬ "" ∈ acc ++ s := by
  intro l
  induction l with
  | nil =>
    intro acc h1 h2
    exact ⟨[], by rw [DataMerger.clubLoop, List.append_nil], List.nil_sublist _,
      by rwa [List.append_nil], by rwa [List.append_nil]⟩
  | cons v r ih =>
    intro acc h1 h2
    rw [DataMerger.clubLoop]
    by_cases hg : v ≠ "" ∧ ¬ v ∈ acc
    · rw [if_pos hg]
      have hacc1 : (acc ++ [v]).Nodup := by
        apply List.Nodup.append h1 (List.nodup_singleton v)
        intro a ha hav
        rw [List.mem_singleton] at hav
        exact hg.2 (hav ▸ ha)
      have hacc2 : ¬ "" ∈ acc ++ [v] := by
        rw [List.mem_append, List.mem_singleton]
        rintro (h | h)
        · exact h2 h
        · exact hg.1 h.symm
      obtain ⟨s, hs1, hs2, hs3, hs4⟩ := ih (acc ++ [v]) hacc1 hacc2
      refine ⟨v :: s, ?_, List.Sublist.cons₂ v hs2, ?_, ?_⟩
      · rw [hs1, List.append_assoc]
        rfl
      · rwa [List.append_assoc] at hs3
      · rwa [List.append_assoc] at hs4
    · rw [if_neg hg]
      obtain ⟨s, hs1, hs2, hs3, hs4⟩ := ih acc h1 h2
      exact ⟨s, hs1, List.Sublist.cons v hs2, hs3, hs4⟩

/-- Blank tokens never influence the dedup loop. -/
theorem clubLoop_filter : ∀ (l acc : List String),
    DataMerger.clubLoop l acc = DataMerger.clubLoop (l.filter (fun s => s ≠ "")) acc := by
  intro l
  induction l with
  | nil => intro acc; rfl
  | cons v r ih =>
    intro acc
    by_cases hv : v = ""
    · subst hv
      rw [DataMerger.clubLoop, if_neg (by simp)]
      have hf : ("" :: r).filter (fun s => s ≠ "") = r.filter (fun s => s ≠ "") := by simp
      rw [hf]
      exact ih acc
    · have hf : (v :: r).filter (fun s => s ≠ "") = v :: r.filter (fun s => s ≠ "") := by
        simp [List.filter_cons, hv]
      rw [hf, DataMerger.clubLoop]
      conv_rhs => rw [DataMerger.clubLoop]
      by_cases hg : v ≠ "" ∧ ¬ v ∈ acc
      · rw [if_pos hg, if_pos hg]
        exact ih _
      · rw [if_neg hg, if_neg hg]
        exact ih _

/-- Filtering the raw token stream to its nonempty tokens gives the
per-value clean tokens. -/
theorem allClubs_filter_eq : ∀ l : List Cell,
    (DataMerger.allClubs l).filter (fun s => s ≠ "") = l.flatMap DataMerger.cleanTokens := by
  intro l
  induction l with
  | nil => rfl
  | cons v r ih =>
    have hsplit : DataMerger.allClubs (v :: r) =
        DataMerger.allClubs [v] ++ DataMerger.allClubs r := by
      rw [DataMerger.allClubs, DataMerger.allClubs, DataMerger.allClubs,
        List.flatMap_cons, List.flatMap_cons, List.flatMap_nil, List.append_nil]
    rw [hsplit, List.filter_append, List.flatMap_cons, ih]
    rfl

/-- `merge_club_info` depends only on the clean tokens of its inputs. -/
theorem merge_club_info_eq (l : List Cell) :
    DataMerger.merge_club_info l =
      pyJoin ", " (DataMerger.clubLoop (l.flatMap DataMerger.cleanTokens) []) := by
  rw [DataMerger.merge_club_info]
  split
  · rename_i h
    subst h
    rfl
  · rw [DataMerger.clubTokens, clubLoop_filter, allClubs_filter_eq]

/-- All whitespace when the strip comes back empty. -/
theorem stripL_nil_all_ws {l : List Char} (h : stripL l = []) :
    ∀ c ∈ l, isPyWS c = true := by
  rw [stripL, List.reverse_eq_nil_iff, List.dropWhile_eq_nil_iff] at h
  have hdrop : ∀ c ∈ l.dropWhile isPyWS, isPyWS c = true := by
    intro c hc
    exact h c (List.mem_reverse.mpr hc)
  intro c hc
  rw [← List.takeWhile_append_dropWhile (p := isPyWS) (l := l), List.mem_append] at hc
  rcases hc with hc | hc
  · exact List.mem_takeWhile_imp hc
  · exact hdrop c hc

/-- A comma-free character list splits into a single piece. -/
theorem splitCommaAux_no_comma : ∀ (l cur : List Char), ¬ ',' ∈ l →
    DataMerger.splitCommaAux l cur = [⟨cur.reverse ++ l⟩] := by
  intro l
  induction l with
  | nil =>
    intro cur _
    rw [DataMerger.splitCommaAux, List.append_nil]
  | cons c r ih =>
    intro cur h
    have hc : ¬ c = ',' := fun hc => h (hc ▸ List.mem_cons_self _ _)
    rw [DataMerger.splitCommaAux, if_neg hc,
      ih (c :: cur) (fun hr => h (List.mem_cons_of_mem _ hr)),
      List.reverse_cons, List.append_assoc]
    rfl

/-- A value that strips to blank contributes no clean token. -/
theorem cleanTokens_blank {v : Cell}
    (h : v = none ∨ ∃ s, v = some s ∧ pyStrip s = "") :
    DataMerger.cleanTokens v = [] := by
  rcases h with rfl | ⟨s, rfl, hs⟩
  · rfl
  · by_cases hempty : s = ""
    · subst hempty
      rfl
    · have hws : ∀ c ∈ s.data, isPyWS c = true := by
        apply stripL_nil_all_ws
        have : (pyStrip s).data = stripL s.data := rfl
        rw [← this, hs]
      have hnocomma : ¬ ',' ∈ s.data := by
        intro hmem
        have := hws ',' hmem
        simp [isPyWS] at this
      have hsplit : DataMerger.splitComma s = [s] := by
        rw [DataMerger.splitComma, splitCommaAux_no_comma s.data [] hnocomma]
        rfl
      rw [DataMerger.cleanTokens, DataMerger.allClubs, List.flatMap_cons, List.flatMap_nil,
        List.append_nil]
      show ((if s ≠ "" then (DataMerger.splitComma s).map pyStrip else []).filter
        (fun s => s ≠ "")) = []
      rw [if_pos hempty, hsplit, List.map_cons, List.map_nil, hs]
      rfl

/-- C10: the club merge never emits an empty token, its token list is
duplicate-free in first-seen order (a subsequence of the raw token
stream), its output is the comma-space join of those tokens, it depends
only on each value's clean tokens (so stray leading, trailing or doubled
commas change nothing), and it returns the empty string when the list is
empty or all values are null or blank. -/
theorem C10_merge_club_info_properties (l : List Cell) :
    (¬ "" ∈ DataMerger.clubTokens l ∧
      (DataMerger.clubTokens l).Nodup ∧
      List.Sublist (DataMerger.clubTokens l) (DataMerger.allClubs l)) ∧
    DataMerger.merge_club_info l = pyJoin ", " (DataMerger.clubTokens l) ∧
    (∀ l₂ : List Cell, l.flatMap DataMerger.cleanTokens = l₂.flatMap DataMerger.cleanTokens →
        DataMerger.merge_club_info l = DataMerger.merge_club_info l₂) ∧
    ((∀ v ∈ l, v = none ∨ ∃ s, v = some s ∧ pyStrip s = "") →
        DataMerger.merge_club_info l = "") := by
  obtain ⟨s, hs1, hs2, hs3, hs4⟩ :=
    clubLoop_spec (DataMerger.allClubs l) [] List.nodup_nil (by simp)
  rw [List.nil_append] at hs1 hs3 hs4
  refine ⟨⟨?_, ?_, ?_⟩, ?_, ?_, ?_⟩
  · rw [DataMerger.clubTokens, hs1]
    exact hs4
  · rw [DataMerger.clubTokens, hs1]
    exact hs3
  · rw [DataMerger.clubTokens, hs1]
    exact hs2
  · rw [DataMerger.merge_club_info]
    split
    · rename_i h
      subst h
      rfl
    · rfl
  · intro l₂ h
    rw [merge_club_info_eq, merge_club_info_eq, h]
  · intro h
    have hnil : ∀ (m : List Cell), (∀ v ∈ m, v = none ∨ ∃ u, v = some u ∧ pyStrip u = "") →
        m.flatMap DataMerger.cleanTokens = [] := by
      intro m
      induction m with
      | nil => intro _; rfl
      | cons v r ih =>
        intro hm
        rw [List.flatMap_cons, cleanTokens_blank (hm v (List.mem_cons_self _ _)),
          List.nil_append]
        exact ih (fun w hw => hm w (List.mem_cons_of_mem _ hw))
    rw [merge_club_info_eq, hnil l h]
    rfl

/-- C10 witness: Scenario 4's merge, robustness against doubled and
trailing commas, and the all-blank case. -/
theorem C10_merge_club_info_properties_witness :
    DataMerger.merge_club_info [some "篮球社, 摄影社", some "摄影社"] = "篮球社, 摄影社" ∧
    ([some "篮球社, 摄影社", some "摄影社"] : List Cell).flatMap DataMerger.cleanTokens =
      ([some "篮球社,, 摄影社,", some " 摄影社 "] : List Cell).flatMap DataMerger.cleanTokens ∧
    DataMerger.merge_club_info [some "篮球社, 摄影社", some "摄影社"] =
      DataMerger.merge_club_info [some "篮球社,, 摄影社,", some " 摄影社 "] ∧
    DataMerger.merge_club_info [none, some "  "] = "" :=
  ⟨by decide, by decide,
    (C10_merge_club_info_properties [some "篮球社, 摄影社", some "摄影社"]).2.2.1
      [some "篮球社,, 摄影社,", some " 摄影社 "] (by decide),
    (C10_merge_club_info_properties [none, some "  "]).2.2.2
      (by
        intro v hv
        rcases List.mem_cons.mp hv with rfl | hv
        · exact Or.inl rfl
        · rw [List.mem_singleton] at hv
          subst hv
          exact Or.inr ⟨"  ", rfl, by decide⟩)⟩

/-- C8 amended witness: the fixer's output for a label with a doubled
marker contains no consecutive marker glyphs. -/
theorem C8_collapse_amended_witness :
    YearFormatter.noDoubleJi
      ((YearFormatter.fix_year_format (some "22级级计算机")).getD "").data = true ∧
    YearFormatter.fix_year_format (some "22级级计算机") = some "2022级计算机" :=
  ⟨C8_collapse_amended "22级级计算机", by decide⟩
